import Mathlib

set_option maxRecDepth 100000

/-!
Verification development for the chemical-formula atomic-ratio module
(file `atomic_ratio_parser.py`).

Embedding conventions:
* Python strings are modelled as `List Char`.
* Python `Decimal` values produced by this program are always non-negative;
  they are modelled by `PyDecimal`: an unsigned coefficient (the digit string
  read as a natural number) together with an exponent, exactly as CPython's
  `decimal` module stores them.  Addition and multiplication are exact, which
  agrees with CPython for every value small enough to stay within the default
  28-digit context; all values handled by the claims are far below that bound.
* Python `dict` values are modelled as insertion-ordered association lists.
* A Python function that can raise returns `Except PyErr`; `PyErr`
  distinguishes `ValueError` (the only exception the top level catches)
  from `AttributeError` (raised by `None.group()`).
* Loops are modelled with an explicit fuel argument; fuel bounds are chosen
  so the fuel can never run out, and fuel-irrelevance lemmas are proved below.
* Top-level definitions keep the Python names, with the leading underscore of
  private helpers dropped.
-/

/-- Character is one of `0`..`9` (the regex class `[0-9]`). -/
def isDigitC (c : Char) : Bool := 48 ≤ c.toNat && c.toNat ≤ 57

/-- Character is an ASCII letter (every chemical symbol consists of these). -/
def isAlphaC (c : Char) : Bool :=
  (65 ≤ c.toNat && c.toNat ≤ 90) || (97 ≤ c.toNat && c.toNat ≤ 122)

/-- Read a digit string (most significant first) as a natural number,
with an explicit accumulator; `digitsToNat` below starts it at `0`.
This is `int(s)` applied to a digit string. -/
def digitsToNatAcc : Nat → List Char → Nat
  | acc, [] => acc
  | acc, c :: cs => digitsToNatAcc (10 * acc + (c.toNat - 48)) cs

def digitsToNat (s : List Char) : Nat := digitsToNatAcc 0 s

/-- The decimal digit characters. -/
def digitChar : Nat → Char
  | 0 => '0' | 1 => '1' | 2 => '2' | 3 => '3' | 4 => '4'
  | 5 => '5' | 6 => '6' | 7 => '7' | 8 => '8' | 9 => '9'
  | _ => '*'

/-- Decimal digit string of a natural number (`str(n)`), fuel-driven;
fuel `n+1` always suffices because the argument strictly decreases. -/
def natDigitsGo : Nat → Nat → List Char → List Char
  | 0, _, acc => acc
  | fuel + 1, n, acc =>
    if n < 10 then digitChar n :: acc
    else natDigitsGo fuel (n / 10) (digitChar (n % 10) :: acc)

def natDigits (n : Nat) : List Char := natDigitsGo (n + 1) n []

/-- A non-negative CPython `Decimal`: coefficient digits read as a `Nat`
plus an exponent (`Decimal('0.95')` is `⟨95, -2⟩`). -/
structure PyDecimal where
  coeff : Nat
  exp : Int
  deriving DecidableEq, Repr

/-- The value `Decimal('0')`. -/
def decZero : PyDecimal := ⟨0, 0⟩

/-- The value `Decimal('1')`. -/
def decOne : PyDecimal := ⟨1, 0⟩

/-- Exact `Decimal` multiplication: multiply coefficients, add exponents.
CPython rounds a product beyond the default 28-significant-digit context;
the model is exact, and is only relied on at concrete small values where
CPython's multiplication is exact too. -/
def PyDecimal.mul (a b : PyDecimal) : PyDecimal :=
  ⟨a.coeff * b.coeff, a.exp + b.exp⟩

/-- Exact `Decimal` addition: align at the smaller exponent and add
coefficients.  CPython's ideal exponent of an exact sum is the minimum, and
the sum is exact whenever its coefficient stays within the default
28-significant-digit context; beyond that CPython rounds while this model
does not, so every theorem that quantifies over values restricts them to
the exact range (see `contextSafeB`). -/
def PyDecimal.add (a b : PyDecimal) : PyDecimal :=
  let e := min a.exp b.exp
  ⟨a.coeff * 10 ^ (a.exp - e).toNat + b.coeff * 10 ^ (b.exp - e).toNat, e⟩

/-- Numeric equality of decimals (`Decimal.__eq__` compares values, so
`Decimal('1.0') == Decimal('1')`). -/
def PyDecimal.numEq (a b : PyDecimal) : Bool :=
  let e := min a.exp b.exp
  a.coeff * 10 ^ (a.exp - e).toNat == b.coeff * 10 ^ (b.exp - e).toNat

/-- Split a literal at its first dot (used by the `Decimal` constructor). -/
def splitDot : List Char → List Char × Option (List Char)
  | [] => ([], none)
  | c :: cs =>
    if c = '.' then ([], some cs)
    else
      let p := splitDot cs
      (c :: p.1, p.2)

/-- The constructor `Decimal(lit)` for a literal matching `[0-9]+(\.[0-9]+)?`:
CPython stores `int(intpart + fracpart)` as the coefficient and
`-len(fracpart)` as the exponent. -/
def decFromLit (lit : List Char) : PyDecimal :=
  match splitDot lit with
  | (ip, none) => ⟨digitsToNat ip, 0⟩
  | (ip, some fp) => ⟨digitsToNat (ip ++ fp), -(fp.length : Int)⟩

/-- Render a signed integer as `'%+d' % n` (used in exponent markers). -/
def intSigned (n : Int) : List Char :=
  if n < 0 then '-' :: natDigits (-n).toNat else '+' :: natDigits n.toNat

/-- Rendering `str()` of a non-negative `Decimal`, following the to-scientific-string
algorithm of CPython's `decimal.py` `__str__`. -/
def pyDecimalStr (v : PyDecimal) : List Char :=
  let ds := natDigits v.coeff
  let leftdigits : Int := v.exp + ds.length
  let dotplace : Int := if v.exp ≤ 0 ∧ -6 < leftdigits then leftdigits else 1
  let intpart : List Char :=
    if dotplace ≤ 0 then ['0']
    else if (ds.length : Int) ≤ dotplace then
      ds ++ List.replicate (dotplace - ds.length).toNat '0'
    else ds.take dotplace.toNat
  let fracpart : List Char :=
    if dotplace ≤ 0 then '.' :: (List.replicate (-dotplace).toNat '0' ++ ds)
    else if (ds.length : Int) ≤ dotplace then []
    else '.' :: ds.drop dotplace.toNat
  let epart : List Char :=
    if leftdigits = dotplace then [] else 'E' :: intSigned (leftdigits - dotplace)
  intpart ++ fracpart ++ epart

/-- Python exceptions relevant to this module.  The top-level scanner
catches only `ValueError`; the unguarded `ratio_match.group()` on the
splice line raises `AttributeError` when no multiplier follows `)`. -/
inductive PyErr where
  | valueError (msg : String)
  | attributeError
  deriving DecidableEq, Repr

/-- A Python dict from symbol to decimal, as an insertion-ordered
association list with unique keys. -/
abbrev RatioDict := List (List Char × PyDecimal)

/-- Lookup `d.get(k)` / `d[k]`. -/
def dictGet : RatioDict → List Char → Option PyDecimal
  | [], _ => none
  | (k, v) :: rest, key => if k = key then some v else dictGet rest key

/-- Assignment `d[k] = v`: overwrite in place (keeping the key's position) or append. -/
def dictSet : RatioDict → List Char → PyDecimal → RatioDict
  | [], k, v => [(k, v)]
  | (k0, v0) :: rest, k, v =>
    if k0 = k then (k0, v) :: rest else (k0, v0) :: dictSet rest k v

/-- The table `CHEMICAL_SYMBOLS`: the 118 element symbols in atomic-number order. -/
def CHEMICAL_SYMBOLS_L : List (List Char) :=
  ["H", "He", "Li", "Be", "B", "C", "N", "O", "F", "Ne",
   "Na", "Mg", "Al", "Si", "P", "S", "Cl", "Ar", "K", "Ca",
   "Sc", "Ti", "V", "Cr", "Mn", "Fe", "Co", "Ni", "Cu", "Zn",
   "Ga", "Ge", "As", "Se", "Br", "Kr", "Rb", "Sr", "Y", "Zr",
   "Nb", "Mo", "Tc", "Ru", "Rh", "Pd", "Ag", "Cd", "In", "Sn",
   "Sb", "Te", "I", "Xe", "Cs", "Ba", "La", "Ce", "Pr", "Nd",
   "Pm", "Sm", "Eu", "Gd", "Tb", "Dy", "Ho", "Er", "Tm", "Yb",
   "Lu", "Hf", "Ta", "W", "Re", "Os", "Ir", "Pt", "Au", "Hg",
   "Tl", "Pb", "Bi", "Po", "At", "Rn", "Fr", "Ra", "Ac", "Th",
   "Pa", "U", "Np", "Pu", "Am", "Cm", "Bk", "Cf", "Es", "Fm",
   "Md", "No", "Lr", "Rf", "Db", "Sg", "Bh", "Hs", "Mt", "Ds",
   "Rg", "Cn", "Nh", "Fl", "Mc", "Lv", "Ts", "Og"].map String.toList

/-- Python string `<` (lexicographic on code points, a proper prefix is
smaller). -/
def lexLt : List Char → List Char → Bool
  | [], [] => false
  | [], _ :: _ => true
  | _ :: _, [] => false
  | a :: as, b :: bs => if a = b then lexLt as bs else Nat.blt a.toNat b.toNat

/-- Strictly-descending check: every later element is `<` the head.
`sorted(l, reverse=True)` of a duplicate-free list satisfies this. -/
def pairwiseDescB : List (List Char) → Bool
  | [] => true
  | a :: rest => rest.all (fun x => lexLt x a) && pairwiseDescB rest

/-- The alternation order of `CHEMICAL_SYMBOL_PATTERN`:
`sorted(CHEMICAL_SYMBOLS, reverse=True)`.  Written out literally; theorem
`symbols_desc_is_reverse_sorted` below proves this list is exactly the
strictly-descending reordering of `CHEMICAL_SYMBOLS_L`, which pins it to
the Python expression uniquely. -/
def SYMBOLS_DESC : List (List Char) :=
  ["Zr", "Zn", "Yb", "Y", "Xe", "W", "V", "U", "Ts", "Tm",
   "Tl", "Ti", "Th", "Te", "Tc", "Tb", "Ta", "Sr", "Sn", "Sm",
   "Si", "Sg", "Se", "Sc", "Sb", "S", "Ru", "Rn", "Rh", "Rg",
   "Rf", "Re", "Rb", "Ra", "Pu", "Pt", "Pr", "Po", "Pm", "Pd",
   "Pb", "Pa", "P", "Os", "Og", "O", "Np", "No", "Ni", "Nh",
   "Ne", "Nd", "Nb", "Na", "N", "Mt", "Mo", "Mn", "Mg", "Md",
   "Mc", "Lv", "Lu", "Lr", "Li", "La", "Kr", "K", "Ir", "In",
   "I", "Hs", "Ho", "Hg", "Hf", "He", "H", "Ge", "Gd", "Ga",
   "Fr", "Fm", "Fl", "Fe", "F", "Eu", "Es", "Er", "Dy", "Ds",
   "Db", "Cu", "Cs", "Cr", "Co", "Cn", "Cm", "Cl", "Cf", "Ce",
   "Cd", "Ca", "C", "Br", "Bk", "Bi", "Bh", "Be", "Ba", "B",
   "Au", "At", "As", "Ar", "Am", "Al", "Ag", "Ac"].map String.toList

/-- The list `SYMBOLS_DESC` is strictly descending and holds exactly the elements of
`CHEMICAL_SYMBOLS_L` (both duplicate-free), hence it is
`sorted(CHEMICAL_SYMBOLS, reverse=True)`. -/
theorem symbols_desc_is_reverse_sorted :
    pairwiseDescB SYMBOLS_DESC = true ∧
    SYMBOLS_DESC.length = CHEMICAL_SYMBOLS_L.length ∧
    (∀ s ∈ CHEMICAL_SYMBOLS_L, s ∈ SYMBOLS_DESC) ∧
    (∀ s ∈ SYMBOLS_DESC, s ∈ CHEMICAL_SYMBOLS_L) ∧
    CHEMICAL_SYMBOLS_L.Nodup ∧ CHEMICAL_SYMBOLS_L.length = 118 := by
  refine ⟨by decide, by decide, by decide, by decide, by decide, by decide⟩

/-- Boolean prefix test (a literal regex alternative matching at the
current position). -/
def isPfx : List Char → List Char → Bool
  | [], _ => true
  | _ :: _, [] => false
  | a :: as, b :: bs => a = b && isPfx as bs

/-- First element of `l` that matches at the start of `s` (regex alternation
tries its alternatives left to right). -/
def findPrefixIn : List (List Char) → List Char → Option (List Char)
  | [], _ => none
  | sym :: rest, s => if isPfx sym s then some sym else findPrefixIn rest s

/-- Matching `_prog_chemical_symbol.match(s)`: the first alternative of
`CHEMICAL_SYMBOL_PATTERN` matching at position 0. -/
def matchSymbol (s : List Char) : Option (List Char) :=
  findPrefixIn SYMBOLS_DESC s

/-- Leading run of digits and the remainder. -/
def takeDigits : List Char → List Char × List Char
  | [] => ([], [])
  | c :: cs =>
    if isDigitC c then
      let p := takeDigits cs
      (c :: p.1, p.2)
    else ([], c :: cs)

/-- Matching `_prog_positive_float.match(s)`: greedy match of `[0-9]+(\.[0-9]+)?`
at position 0, returning the matched literal and the remainder. -/
def matchFloat (s : List Char) : Option (List Char × List Char) :=
  if (takeDigits s).1.isEmpty then none
  else
    match (takeDigits s).2 with
    | c :: r2 =>
      if c = '.' then
        if (takeDigits r2).1.isEmpty then some ((takeDigits s).1, (takeDigits s).2)
        else some ((takeDigits s).1 ++ c :: (takeDigits r2).1, (takeDigits r2).2)
      else some ((takeDigits s).1, (takeDigits s).2)
    | [] => some ((takeDigits s).1, (takeDigits s).2)

/-- Error message of the flat-formula parser (the Python message also embeds
the offending string via `repr`; only the exception's type matters to any
caller, so the interpolation is elided). -/
def flatParseErr : PyErr := .valueError "is not a simple, expanded chemical formula"

/-- Loop body of `_parse_atomic_ratio_from_expanded_chemical_formula`:
repeatedly match a symbol, match an optional quantity (default 1), and add
the quantity to the symbol's running total (default 0).  Each iteration
consumes at least one character, so fuel `length + 1` never runs out
(`parseExpandedGo_fuel_irrel` below). -/
def parseExpandedGo : Nat → List Char → RatioDict → Except PyErr RatioDict
  | _, [], acc => .ok acc
  | 0, _ :: _, _ => .error flatParseErr
  | fuel + 1, f, acc =>
    match matchSymbol f with
    | none => .error flatParseErr
    | some sym =>
      let rest := f.drop sym.length
      match matchFloat rest with
      | none =>
        parseExpandedGo fuel rest
          (dictSet acc sym (((dictGet acc sym).getD decZero).add decOne))
      | some (lit, rest2) =>
        parseExpandedGo fuel rest2
          (dictSet acc sym (((dictGet acc sym).getD decZero).add (decFromLit lit)))

/-- Function `_parse_atomic_ratio_from_expanded_chemical_formula` (the Flat Formula
Parser). -/
def parse_atomic_ratio_from_expanded_chemical_formula
    (f : List Char) : Except PyErr RatioDict :=
  parseExpandedGo (f.length + 1) f []

/-- Function `_convert_ratio_dict_to_str` (the Ratio-to-String Serializer): for each
symbol in atomic-number order, if its ratio is present and truthy
(non-zero), append the symbol and `str()` of the ratio. -/
def convert_ratio_dict_to_str (d : RatioDict) : List Char :=
  CHEMICAL_SYMBOLS_L.foldl
    (fun acc sym =>
      match dictGet d sym with
      | some v => if v.coeff ≠ 0 then acc ++ sym ++ pyDecimalStr v else acc
      | none => acc)
    []

/-- Python `s.find(c)`: index of the first occurrence, `-1` if absent. -/
def pyFind (c : Char) : List Char → Int
  | [] => -1
  | a :: as =>
    if a = c then 0
    else if pyFind c as < 0 then -1 else pyFind c as + 1

/-- Largest index of `c` in `s`, `-1` if absent. -/
def lastIdxC (c : Char) : List Char → Int
  | [] => -1
  | a :: as =>
    if 0 ≤ lastIdxC c as then lastIdxC c as + 1
    else if a = c then 0 else -1

/-- Python slice end: a negative `e` counts from the end (clamped at 0). -/
def pySliceEnd (len : Nat) (e : Int) : Nat :=
  if e < 0 then ((len : Int) + e).toNat else min e.toNat len

/-- Python `s.rfind(c, 0, e)`: last occurrence of `c` in `s[0:e]`, `-1` if absent.
Note the Python slice semantics: when `e = -1` (as happens when `find(')')`
failed), the search excludes the final character of `s`. -/
def pyRfind (c : Char) (s : List Char) (e : Int) : Int :=
  lastIdxC c (s.take (pySliceEnd s.length e))

/-- Function `_expand_innermost_atomic_ratio` (the Innermost-Group Expander).
Faithfully reproduces the unguarded `ratio_match.group()` on the splice
line: when no decimal literal follows the closing parenthesis, the function
raises `AttributeError` instead of using the prepared default multiplier. -/
def expand_innermost_atomic_ratio (f : List Char) : Except PyErr (List Char) :=
  let rIdx := pyFind ')' f
  let lIdx := pyRfind '(' f rIdx
  if rIdx < 0 then
    if lIdx < 0 then .ok f
    else .error (.valueError "Invalid chemical formula: missing right parenthesis")
  else if lIdx < 0 then
    .error (.valueError "Invalid chemical formula: missing left parenthesis")
  else
    let r := rIdx.toNat
    let l := lIdx.toNat
    let ratioMatch := matchFloat (f.drop (r + 1))
    let mult : PyDecimal :=
      match ratioMatch with
      | some p => decFromLit p.1
      | none => decOne
    match parse_atomic_ratio_from_expanded_chemical_formula
        ((f.drop (l + 1)).take (r - (l + 1))) with
    | .error e => .error e
    | .ok d =>
      let scaled : RatioDict := d.map (fun kv => (kv.1, kv.2.mul mult))
      let es := convert_ratio_dict_to_str scaled
      match ratioMatch with
      | none => .error .attributeError
      | some p => .ok (f.take l ++ es ++ f.drop (r + p.1.length + 1))

/-- Number of `)` characters, the measure that each successful splice
strictly decreases. -/
def countRParen (f : List Char) : Nat := f.count ')'

/-- The `while formula != prev_formula` loop of
`_get_expanded_chemical_formula`, fuel-driven.  A successful non-identity
step removes exactly one `)`, so fuel `countRParen f + 1` never runs out
(`expandLoop_fuel_irrel` below). -/
def expandLoop : Nat → List Char → Except PyErr (List Char)
  | 0, f => .ok f
  | fuel + 1, f =>
    match expand_innermost_atomic_ratio f with
    | .error e => .error e
    | .ok f' => if f' = f then .ok f else expandLoop fuel f'

/-- Function `_get_expanded_chemical_formula` (the Formula Expansion Driver). -/
def get_expanded_chemical_formula (f : List Char) : Except PyErr (List Char) :=
  expandLoop (countRParen f + 1) f

/-- Whitespace characters of `str.split()` (ASCII portion; the inputs of
this module are ASCII). -/
def pyIsSpace (c : Char) : Bool :=
  c = ' ' || c = '\t' || c = '\n' || c = '\r' || c = '\x0b' || c = '\x0c'

/-- Python `str.split()`: split on whitespace runs, dropping empty pieces. -/
def splitWsGo : List Char → List Char → List (List Char)
  | [], cur => if cur.isEmpty then [] else [cur.reverse]
  | c :: cs, cur =>
    if pyIsSpace c then
      if cur.isEmpty then splitWsGo cs [] else cur.reverse :: splitWsGo cs []
    else splitWsGo cs (c :: cur)

def pySplitWs (s : List Char) : List (List Char) := splitWsGo s []

/-- The preprocessing of `parse_atomic_ratio`: drop `_`, `{`, `}` and turn
`,` into a space. -/
def normalizeInput (s : List Char) : List Char :=
  ((((s.filter (fun c => c ≠ '_')).filter (fun c => c ≠ '{')).filter
    (fun c => c ≠ '}')).map (fun c => if c = ',' then ' ' else c))

/-- The body of the `try` block: expand the token, then parse it flat. -/
def tokenResult (t : List Char) : Except PyErr RatioDict :=
  match get_expanded_chemical_formula t with
  | .error e => .error e
  | .ok ef => parse_atomic_ratio_from_expanded_chemical_formula ef

/-- The token loop: `except ValueError: continue`, first success wins,
empty dict when every token fails.  Any non-`ValueError` exception
propagates. -/
def scanTokens : List (List Char) → Except PyErr RatioDict
  | [] => .ok []
  | t :: ts =>
    match tokenResult t with
    | .ok d => .ok d
    | .error (.valueError _) => scanTokens ts
    | .error e => .error e

/-- Function `parse_atomic_ratio`, the single public entry point. -/
def parse_atomic_ratio (s : String) : Except PyErr RatioDict :=
  scanTokens (pySplitWs (normalizeInput s.toList))

/-- Python `dict` equality against another dict whose values are compared
with `Decimal.__eq__` (numeric equality): same number of keys and every key
of the first is present in the second with a numerically equal value. -/
def pyDictEq (d1 d2 : RatioDict) : Bool :=
  d1.length == d2.length &&
  d1.all (fun kv =>
    match dictGet d2 kv.1 with
    | some v => kv.2.numEq v
    | none => false)

/-- The serializer's emission test for a symbol: present with a truthy
(non-zero) ratio. -/
def truthyAt (d : RatioDict) (sym : List Char) : Bool :=
  match dictGet d sym with
  | some v => v.coeff != 0
  | none => false

/-- Text the serializer contributes for one symbol of the table. -/
def emitEntry (d : RatioDict) (sym : List Char) : List Char :=
  match dictGet d sym with
  | some v => if v.coeff ≠ 0 then sym ++ pyDecimalStr v else []
  | none => []

/-- Concatenation of the serializer's per-symbol contributions. -/
def flattenEmit (d : RatioDict) : List (List Char) → List Char
  | [] => []
  | sym :: rest => emitEntry d sym ++ flattenEmit d rest

/-- The entries the serializer emits, in table order. -/
def emittedPairs (d : RatioDict) : List (List Char) → RatioDict
  | [] => []
  | sym :: rest =>
    match dictGet d sym with
    | some v =>
      if v.coeff ≠ 0 then (sym, v) :: emittedPairs d rest
      else emittedPairs d rest
    | none => emittedPairs d rest

/-- A positive decimal whose `str()` uses no exponent notation: exponent at
most 0 and adjusted exponent above -7.  Every decimal literal of a formula
with at most six fractional digits (and any product or sum of such values
in that range) satisfies this. -/
def plainPositiveB (v : PyDecimal) : Bool :=
  decide (0 < v.coeff) && decide (v.exp ≤ 0) &&
  decide (-6 < v.exp + ((natDigits v.coeff).length : Int))

/-- A `plainPositiveB` value whose coefficient moreover fits the default
`decimal` context precision of 28 significant digits.  On such values the
only arithmetic the round trip performs — `Decimal('0') + v` when the flat
parser accumulates — is exact in CPython (no context rounding applies to a
sum whose coefficient has at most 28 digits), so the exact `PyDecimal.add`
model coincides with the program on this domain; beyond it `Decimal.__add__`
rounds and the round trip genuinely fails. -/
def contextSafeB (v : PyDecimal) : Bool :=
  plainPositiveB v && decide ((natDigits v.coeff).length ≤ 28)

deriving instance DecidableEq for Except

/-- The text that can follow a serialized quantity without extending the
greedy `[0-9]+(\.[0-9]+)?` match: empty, or starting with a character that
is neither a digit nor a dot (in the serializer's output, the next
character is always the first letter of another element symbol). -/
def headSafe (r : List Char) : Prop :=
  ∀ c cs, r = c :: cs → isDigitC c = false ∧ c ≠ '.'

/-! ## General lemmas about the embedded operations -/

/-- Updating a key and reading it back yields the written value. -/
theorem dictGet_dictSet_self (d : RatioDict) (k : List Char) (v : PyDecimal) :
    dictGet (dictSet d k v) k = some v := by
  induction d with
  | nil => simp [dictSet, dictGet]
  | cons head rest ih =>
    obtain ⟨k0, v0⟩ := head
    by_cases h : k0 = k
    · simp [dictSet, dictGet, h]
    · simp [dictSet, dictGet, h, ih]

/-! ## Claim theorems -/

/-- Claim C1: the claim states that an innermost group whose closing
parenthesis is not followed by a decimal literal is expanded normally with
default multiplier 1.  The code prepares that default but then reads
`ratio_match.group()` unguarded on the splice line, so it raises
`AttributeError` instead; with a multiplier present the same group expands
fine.  This theorem evaluates the Innermost-Group Expander at the claim's
own example input. -/
theorem c1_missing_multiplier_raises :
    expand_innermost_atomic_ratio ("(PbTe)".toList) = .error .attributeError ∧
    expand_innermost_atomic_ratio ("(PbTe)2".toList) = .ok ("Te2Pb2".toList) := by
  exact ⟨rfl, rfl⟩

/-- Claim C2: the claim states the top-level parse never propagates an
error.  On `"(PbTe)"` the missing-multiplier `AttributeError` is not a
`ValueError`, escapes the per-token handler, and reaches the caller. -/
theorem c2_error_escapes_top_level :
    parse_atomic_ratio "(PbTe)" = .error .attributeError := by
  exact rfl

/-- Claim C3: `parse_atomic_ratio "(TePb(PbS)0.3)0.1(BiTe)2"` returns
exactly the mapping Te 2.1, Pb 0.13, S 0.03, Bi 2, with exact decimal
arithmetic (the S entry is the exact product `0.3 * 0.1 = 0.03`,
coefficient 3 at exponent -2). -/
theorem c3_nested_example_exact :
    parse_atomic_ratio "(TePb(PbS)0.3)0.1(BiTe)2" =
      .ok [("S".toList, ⟨3, -2⟩), ("Te".toList, ⟨21, -1⟩),
           ("Pb".toList, ⟨13, -2⟩), ("Bi".toList, ⟨2, 0⟩)] ∧
    pyDictEq
      [("S".toList, ⟨3, -2⟩), ("Te".toList, ⟨21, -1⟩),
       ("Pb".toList, ⟨13, -2⟩), ("Bi".toList, ⟨2, 0⟩)]
      [("Te".toList, decFromLit ("2.1".toList)),
       ("Pb".toList, decFromLit ("0.13".toList)),
       ("S".toList, decFromLit ("0.03".toList)),
       ("Bi".toList, decFromLit ("2".toList))] = true ∧
    (decFromLit ("0.3".toList)).mul (decFromLit ("0.1".toList)) =
      (⟨3, -2⟩ : PyDecimal) := by
  exact ⟨rfl, by decide, rfl⟩

/-- Claim C4: the claim states the Expansion Driver's normal output never
contains a parenthesis.  When the only `(` is the string's final character,
`rfind('(', 0, -1)` excludes it (Python slice semantics), the expander
treats the string as flat, and the driver returns it unchanged, `(`
included. -/
theorem c4_driver_can_return_parenthesis :
    get_expanded_chemical_formula ("Al(".toList) = .ok ("Al(".toList) ∧
    '(' ∈ "Al(".toList := by
  exact ⟨rfl, by decide⟩

/-- Claim C8: the Top-Level Scanner returns the first token that parses,
ignoring later valid tokens: the claim's example returns only the first
formula's ratios.  The general "tries each token in order" reading fails
only through the C1 bug: on `"(PbTe) H2O"` the first token raises
`AttributeError`, which aborts the scan even though the second token is a
valid formula. -/
theorem c8_first_token_wins :
    parse_atomic_ratio "Pb0.95Na0.04Te, Bi2Te3" =
      .ok [("Pb".toList, ⟨95, -2⟩), ("Na".toList, ⟨4, -2⟩), ("Te".toList, ⟨1, 0⟩)] ∧
    pyDictEq
      [("Pb".toList, ⟨95, -2⟩), ("Na".toList, ⟨4, -2⟩), ("Te".toList, ⟨1, 0⟩)]
      [("Pb".toList, decFromLit ("0.95".toList)),
       ("Na".toList, decFromLit ("0.04".toList)),
       ("Te".toList, decFromLit ("1".toList))] = true ∧
    parse_atomic_ratio "(PbTe) H2O" = .error .attributeError ∧
    tokenResult ("H2O".toList) =
      .ok [("H".toList, ⟨2, 0⟩), ("O".toList, ⟨1, 0⟩)] := by
  exact ⟨rfl, by decide, rfl, rfl⟩

/-- Claim C9: each occurrence of a symbol adds its quantity to the symbol's
running total (the parser's update is exactly
`result[sym] = result.get(sym, Decimal('0')) + q`), so `"HH"` parses to
H 2 — the very same mapping `"H2"` parses to — rather than failing. -/
theorem c9_duplicate_symbols_accumulate :
    (∀ (d : RatioDict) (sym : List Char) (q : PyDecimal),
      dictGet (dictSet d sym (((dictGet d sym).getD decZero).add q)) sym =
        some (((dictGet d sym).getD decZero).add q)) ∧
    parse_atomic_ratio_from_expanded_chemical_formula ("HH".toList) =
      .ok [("H".toList, ⟨2, 0⟩)] ∧
    parse_atomic_ratio_from_expanded_chemical_formula ("H2".toList) =
      .ok [("H".toList, ⟨2, 0⟩)] := by
  exact ⟨fun d sym q => dictGet_dictSet_self d sym _, rfl, rfl⟩

/-- Claim C6 counterexample: the mapping H ↦ Decimal('0.0000001') has no
zero entry, yet its serialization is `"H1E-7"` (CPython renders small
adjusted exponents in scientific notation), and re-parsing that string
fails instead of reproducing the mapping. -/
theorem c6_counterexample :
    (decFromLit ("0.0000001".toList)).coeff ≠ 0 ∧
    convert_ratio_dict_to_str [("H".toList, decFromLit ("0.0000001".toList))] =
      "H1E-7".toList ∧
    parse_atomic_ratio_from_expanded_chemical_formula
      (convert_ratio_dict_to_str
        [("H".toList, decFromLit ("0.0000001".toList))]) = .error flatParseErr := by
  exact ⟨by decide, rfl, rfl⟩

/-! ## The alternation order and longest-match -/

theorem pairwiseDescB_cons {a : List Char} {l : List (List Char)}
    (h : pairwiseDescB (a :: l) = true) :
    (∀ x ∈ l, lexLt x a = true) ∧ pairwiseDescB l = true := by
  simpa [pairwiseDescB, List.all_eq_true] using h

theorem symbols_desc_sorted : pairwiseDescB SYMBOLS_DESC = true := by decide

theorem symbols_desc_lengths :
    ∀ t ∈ SYMBOLS_DESC, t.length = 1 ∨ t.length = 2 := by decide

theorem symbols_desc_alpha :
    ∀ t ∈ SYMBOLS_DESC, t.all isAlphaC = true := by decide

theorem mem_desc_of_mem_table :
    ∀ s ∈ CHEMICAL_SYMBOLS_L, s ∈ SYMBOLS_DESC := by decide

theorem mem_table_of_mem_desc :
    ∀ s ∈ SYMBOLS_DESC, s ∈ CHEMICAL_SYMBOLS_L := by decide

theorem isPfx_one {x a : Char} {s : List Char} :
    isPfx [x] (a :: s) = true ↔ x = a := by
  simp [isPfx]

theorem isPfx_two {x y a b : Char} {r : List Char} :
    isPfx [x, y] (a :: b :: r) = true ↔ x = a ∧ y = b := by
  simp [isPfx]

theorem isPfx_len_one {t : List Char} (h : t.length = 1) {a : Char}
    {s : List Char} (hp : isPfx t (a :: s) = true) : t = [a] := by
  obtain ⟨x, rfl⟩ := List.length_eq_one.mp h
  rw [isPfx_one.mp hp]

/-- A regex alternation returns its unique matching alternative. -/
theorem findPrefixIn_unique {l : List (List Char)} {x s : List Char}
    (hx : x ∈ l) (hpx : isPfx x s = true)
    (huniq : ∀ t ∈ l, isPfx t s = true → t = x) :
    findPrefixIn l s = some x := by
  induction l with
  | nil => cases hx
  | cons h t ih =>
    by_cases hh : isPfx h s = true
    · have hhx : h = x := huniq h (List.mem_cons_self h t) hh
      subst hhx
      simp [findPrefixIn, hh]
    · have hx' : x ∈ t := by
        rcases List.mem_cons.mp hx with rfl | hm
        · exact absurd hpx hh
        · exact hm
      simp only [findPrefixIn, hh, if_neg, Bool.false_eq_true, if_false]
      exact ih hx' fun u hu hup => huniq u (List.mem_cons_of_mem _ hu) hup

/-- In a strictly-descending alternation of 1- and 2-character symbols,
when the 2-character symbol `[a, b]` is present it is the first match on
any string starting `a b …` (it precedes `[a]`). -/
theorem findPrefixIn_desc_two {l : List (List Char)} {a b : Char}
    {r : List Char} (hsort : pairwiseDescB l = true)
    (hlen : ∀ t ∈ l, t.length = 1 ∨ t.length = 2)
    (hmem : [a, b] ∈ l) :
    findPrefixIn l (a :: b :: r) = some [a, b] := by
  induction l with
  | nil => cases hmem
  | cons h t ih =>
    obtain ⟨hd, hrest⟩ := pairwiseDescB_cons hsort
    by_cases hph : isPfx h (a :: b :: r) = true
    · rcases hlen h (List.mem_cons_self h t) with h1 | h2
      · have hha : h = [a] := isPfx_len_one h1 hph
        subst hha
        have hmt : [a, b] ∈ t := by
          rcases List.mem_cons.mp hmem with heq | hm
          · simp at heq
          · exact hm
        have hlt := hd _ hmt
        simp [lexLt] at hlt
      · have hab : h = [a, b] := by
          obtain ⟨x, y, rfl⟩ := List.length_eq_two.mp h2
          obtain ⟨hx, hy⟩ := isPfx_two.mp hph
          rw [hx, hy]
        subst hab
        simp [findPrefixIn, hph]
    · have hmt : [a, b] ∈ t := by
        rcases List.mem_cons.mp hmem with heq | hm
        · exact absurd (heq ▸ (by simp [isPfx] : isPfx [a, b] (a :: b :: r) = true)) hph
        · exact hm
      simp only [findPrefixIn, hph, Bool.false_eq_true, if_false]
      exact ih hrest (fun u hu => hlen u (List.mem_cons_of_mem _ hu)) hmt

/-- A digit is not a letter. -/
theorem not_alpha_of_digit {c : Char} (h : isDigitC c = true) :
    isAlphaC c = false := by
  simp only [isDigitC, Bool.and_eq_true, decide_eq_true_eq] at h
  simp only [isAlphaC, Bool.or_eq_false_iff, Bool.and_eq_false_iff,
    decide_eq_false_iff_not, not_le]
  omega

/-- The symbol matcher picks the 2-letter symbol whenever it is in the
table. -/
theorem matchSymbol_two {a b : Char} {r : List Char}
    (hmem : [a, b] ∈ SYMBOLS_DESC) :
    matchSymbol (a :: b :: r) = some [a, b] :=
  findPrefixIn_desc_two symbols_desc_sorted symbols_desc_lengths hmem

/-- A 1-letter symbol followed by a digit matches exactly itself (no table
entry contains a digit). -/
theorem matchSymbol_one {a c : Char} {r : List Char}
    (hmem : [a] ∈ SYMBOLS_DESC) (hc : isDigitC c = true) :
    matchSymbol (a :: c :: r) = some [a] := by
  apply findPrefixIn_unique hmem (by simp [isPfx])
  intro t ht hp
  rcases symbols_desc_lengths t ht with h1 | h2
  · exact isPfx_len_one h1 hp
  · obtain ⟨x, y, rfl⟩ := List.length_eq_two.mp h2
    obtain ⟨hx, hy⟩ := isPfx_two.mp hp
    have hcy : isAlphaC y = true :=
      List.all_eq_true.mp (symbols_desc_alpha _ ht) y (by simp)
    rw [hy, not_alpha_of_digit hc] at hcy
    simp at hcy

/-- Claim C5: wherever both a 1-letter and a 2-letter element symbol match,
the matcher (the regex alternation, sorted in reverse lexicographic order)
returns the 2-letter symbol; in particular `"Co"` parses as the single
symbol cobalt with ratio 1. -/
theorem c5_longest_match :
    (∀ (a b : Char) (r : List Char),
      [a] ∈ CHEMICAL_SYMBOLS_L → [a, b] ∈ CHEMICAL_SYMBOLS_L →
        matchSymbol (a :: b :: r) = some [a, b]) ∧
    parse_atomic_ratio_from_expanded_chemical_formula ("Co".toList) =
      .ok [("Co".toList, ⟨1, 0⟩)] := by
  exact ⟨fun a b r _ h2 => matchSymbol_two (mem_desc_of_mem_table _ h2), rfl⟩

/-- Witness for C5 at the claim's own example `"Co"`. -/
theorem c5_longest_match_witness :
    matchSymbol ("Co".toList) = some ("Co".toList) :=
  c5_longest_match.1 'C' 'o' [] (by decide) (by decide)

/-! ## Serializer characterization -/

theorem emitEntry_eq (d : RatioDict) (sym : List Char) :
    emitEntry d sym =
      if truthyAt d sym then sym ++ pyDecimalStr ((dictGet d sym).getD decZero)
      else [] := by
  have hsplit : dictGet d sym = none ∨ ∃ v, dictGet d sym = some v := by
    cases dictGet d sym
    · exact Or.inl rfl
    · exact Or.inr ⟨_, rfl⟩
  rcases hsplit with hg | ⟨v, hg⟩
  · simp [emitEntry, truthyAt, hg]
  · by_cases hv : v.coeff = 0
    · simp [emitEntry, truthyAt, hg, hv]
    · simp [emitEntry, truthyAt, hg, hv]

theorem serialize_step (d : RatioDict) (acc : List Char) (sym : List Char) :
    (match dictGet d sym with
     | some v => if v.coeff ≠ 0 then acc ++ sym ++ pyDecimalStr v else acc
     | none => acc) = acc ++ emitEntry d sym := by
  simp only [emitEntry]
  cases dictGet d sym with
  | none => simp
  | some v =>
    by_cases hv : v.coeff = 0
    · simp [hv]
    · simp [hv, List.append_assoc]

theorem serialize_foldl (d : RatioDict) (l : List (List Char)) (acc : List Char) :
    l.foldl
      (fun acc sym =>
        match dictGet d sym with
        | some v => if v.coeff ≠ 0 then acc ++ sym ++ pyDecimalStr v else acc
        | none => acc) acc = acc ++ flattenEmit d l := by
  induction l generalizing acc with
  | nil => simp [flattenEmit]
  | cons sym rest ih =>
    rw [List.foldl_cons, ih, serialize_step, flattenEmit, List.append_assoc]

/-- The serializer is the concatenation of per-symbol contributions over the
table. -/
theorem serialize_eq_flattenEmit (d : RatioDict) :
    convert_ratio_dict_to_str d = flattenEmit d CHEMICAL_SYMBOLS_L :=
  calc convert_ratio_dict_to_str d
      = [] ++ flattenEmit d CHEMICAL_SYMBOLS_L :=
        serialize_foldl d CHEMICAL_SYMBOLS_L []
    _ = flattenEmit d CHEMICAL_SYMBOLS_L := List.nil_append _

theorem flattenEmit_eq_filter (d : RatioDict) (l : List (List Char)) :
    flattenEmit d l =
      ((l.filter (truthyAt d)).map
        (fun sym => sym ++ pyDecimalStr ((dictGet d sym).getD decZero))).flatten := by
  induction l with
  | nil => rfl
  | cons sym rest ih =>
    by_cases h : truthyAt d sym = true
    · simp [flattenEmit, List.filter_cons, h, emitEntry_eq, ih]
    · simp only [Bool.not_eq_true] at h
      simp [flattenEmit, List.filter_cons, h, emitEntry_eq, ih]

theorem flattenEmit_congr {d₁ d₂ : RatioDict} (l : List (List Char))
    (h : ∀ sym ∈ l, dictGet d₁ sym = dictGet d₂ sym) :
    flattenEmit d₁ l = flattenEmit d₂ l := by
  induction l with
  | nil => rfl
  | cons sym rest ih =>
    have he : emitEntry d₁ sym = emitEntry d₂ sym := by
      simp [emitEntry, h sym (List.mem_cons_self sym rest)]
    rw [flattenEmit, flattenEmit, he,
      ih fun u hu => h u (List.mem_cons_of_mem _ hu)]

/-- Claim C7: the Ratio-to-String Serializer (a total function) emits
exactly the symbols that are present with a non-zero ratio, in the symbol
table's atomic-number order, each immediately followed by the `str()` text
of its quantity; and its output depends only on the mapping's lookups, not
on the mapping's own entry order. -/
theorem c7_serializer_canonical :
    (∀ d : RatioDict,
      convert_ratio_dict_to_str d =
        ((CHEMICAL_SYMBOLS_L.filter (truthyAt d)).map
          (fun sym => sym ++ pyDecimalStr ((dictGet d sym).getD decZero))).flatten) ∧
    (∀ d₁ d₂ : RatioDict,
      (∀ sym ∈ CHEMICAL_SYMBOLS_L, dictGet d₁ sym = dictGet d₂ sym) →
        convert_ratio_dict_to_str d₁ = convert_ratio_dict_to_str d₂) := by
  constructor
  · intro d
    rw [serialize_eq_flattenEmit, flattenEmit_eq_filter]
  · intro d₁ d₂ h
    rw [serialize_eq_flattenEmit, serialize_eq_flattenEmit, flattenEmit_congr _ h]

/-- Witness for C7: two mappings with the same lookups but opposite entry
order serialize identically. -/
theorem c7_serializer_canonical_witness :
    convert_ratio_dict_to_str [("Te".toList, ⟨3, 0⟩), ("Bi".toList, ⟨2, 0⟩)] =
      convert_ratio_dict_to_str [("Bi".toList, ⟨2, 0⟩), ("Te".toList, ⟨3, 0⟩)] :=
  c7_serializer_canonical.2 _ _ (by decide)

/-! ## Key-set invariant -/

theorem findPrefixIn_mem {l : List (List Char)} {s x : List Char}
    (h : findPrefixIn l s = some x) : x ∈ l := by
  induction l with
  | nil => cases h
  | cons a t ih =>
    by_cases ha : isPfx a s = true
    · simp only [findPrefixIn, ha, if_true, Option.some.injEq] at h
      rw [← h]
      exact List.mem_cons_self a t
    · simp only [findPrefixIn, ha, Bool.false_eq_true, if_false] at h
      exact List.mem_cons_of_mem _ (ih h)

theorem dictSet_keys {P : List Char → Prop} {acc : RatioDict} {sym : List Char}
    {v : PyDecimal} (hacc : ∀ kv ∈ acc, P kv.1) (hsym : P sym) :
    ∀ kv ∈ dictSet acc sym v, P kv.1 := by
  induction acc with
  | nil =>
    intro kv hkv
    simp only [dictSet, List.mem_singleton] at hkv
    rw [hkv]
    exact hsym
  | cons head rest ih =>
    obtain ⟨k0, v0⟩ := head
    intro kv hkv
    by_cases h0 : k0 = sym
    · simp only [dictSet, h0, if_true] at hkv
      rcases List.mem_cons.mp hkv with rfl | hm
      · exact h0 ▸ hsym
      · exact hacc kv (List.mem_cons_of_mem _ hm)
    · simp only [dictSet, h0, if_false] at hkv
      rcases List.mem_cons.mp hkv with rfl | hm
      · exact hacc (k0, v0) (List.mem_cons_self _ _)
      · exact ih (fun u hu => hacc u (List.mem_cons_of_mem _ hu)) kv hm

theorem parseExpandedGo_nil (fuel : Nat) (acc : RatioDict) :
    parseExpandedGo fuel [] acc = .ok acc := by
  cases fuel <;> rfl

theorem parseExpandedGo_keys :
    ∀ (fuel : Nat) (f : List Char) (acc d : RatioDict),
      parseExpandedGo fuel f acc = .ok d →
      (∀ kv ∈ acc, kv.1 ∈ SYMBOLS_DESC) →
      ∀ kv ∈ d, kv.1 ∈ SYMBOLS_DESC := by
  intro fuel
  induction fuel with
  | zero =>
    intro f acc d h hacc
    cases f with
    | nil =>
      rw [parseExpandedGo_nil] at h
      cases h
      exact hacc
    | cons c cs => cases h
  | succ n ih =>
    intro f acc d h hacc
    cases f with
    | nil =>
      rw [parseExpandedGo_nil] at h
      cases h
      exact hacc
    | cons c cs =>
      rw [show parseExpandedGo (n + 1) (c :: cs) acc =
          (match matchSymbol (c :: cs) with
           | none => .error flatParseErr
           | some sym =>
             let rest := (c :: cs).drop sym.length
             match matchFloat rest with
             | none =>
               parseExpandedGo n rest
                 (dictSet acc sym (((dictGet acc sym).getD decZero).add decOne))
             | some (lit, rest2) =>
               parseExpandedGo n rest2
                 (dictSet acc sym
                   (((dictGet acc sym).getD decZero).add (decFromLit lit)))) from rfl] at h
      cases hms : matchSymbol (c :: cs) with
      | none => rw [hms] at h; cases h
      | some sym =>
        rw [hms] at h
        have hsym : sym ∈ SYMBOLS_DESC := findPrefixIn_mem hms
        simp only at h
        cases hmf : matchFloat ((c :: cs).drop sym.length) with
        | none =>
          rw [hmf] at h
          exact ih _ _ _ h (dictSet_keys hacc hsym)
        | some p =>
          obtain ⟨lit, rest2⟩ := p
          rw [hmf] at h
          exact ih _ _ _ h (dictSet_keys hacc hsym)

theorem parse_flat_keys {f : List Char} {d : RatioDict}
    (h : parse_atomic_ratio_from_expanded_chemical_formula f = .ok d) :
    ∀ kv ∈ d, kv.1 ∈ CHEMICAL_SYMBOLS_L := fun kv hkv =>
  mem_table_of_mem_desc _
    (parseExpandedGo_keys _ _ _ _ h (by intro u hu; cases hu) kv hkv)

theorem tokenResult_ok {t : List Char} {d : RatioDict}
    (h : tokenResult t = .ok d) :
    ∃ ef, parse_atomic_ratio_from_expanded_chemical_formula ef = .ok d := by
  unfold tokenResult at h
  cases hg : get_expanded_chemical_formula t with
  | error e => rw [hg] at h; cases h
  | ok ef => rw [hg] at h; exact ⟨ef, h⟩

theorem scanTokens_ok_cases :
    ∀ (ts : List (List Char)) (d : RatioDict),
      scanTokens ts = .ok d → d = [] ∨ ∃ t ∈ ts, tokenResult t = .ok d := by
  intro ts
  induction ts with
  | nil =>
    intro d h
    left
    cases h
    rfl
  | cons t rest ih =>
    intro d h
    cases htr : tokenResult t with
    | ok d' =>
      rw [show scanTokens (t :: rest) =
          (match tokenResult t with
           | .ok d => .ok d
           | .error (.valueError _) => scanTokens rest
           | .error e => .error e) from rfl, htr] at h
      cases h
      exact Or.inr ⟨t, List.mem_cons_self _ _, htr⟩
    | error e =>
      rw [show scanTokens (t :: rest) =
          (match tokenResult t with
           | .ok d => .ok d
           | .error (.valueError _) => scanTokens rest
           | .error e => .error e) from rfl, htr] at h
      cases e with
      | valueError m =>
        rcases ih d h with h1 | ⟨u, hu, hok⟩
        · exact Or.inl h1
        · exact Or.inr ⟨u, List.mem_cons_of_mem _ hu, hok⟩
      | attributeError => cases h

/-- Claim C10: every key of a mapping returned by `parse_atomic_ratio`, and
of any mapping produced by the Flat Formula Parser, belongs to the fixed
118-entry symbol table. -/
theorem c10_keys_in_table :
    (∀ (s : String) (d : RatioDict), parse_atomic_ratio s = .ok d →
      ∀ kv ∈ d, kv.1 ∈ CHEMICAL_SYMBOLS_L) ∧
    (∀ (f : List Char) (d : RatioDict),
      parse_atomic_ratio_from_expanded_chemical_formula f = .ok d →
      ∀ kv ∈ d, kv.1 ∈ CHEMICAL_SYMBOLS_L) ∧
    CHEMICAL_SYMBOLS_L.length = 118 := by
  refine ⟨?_, fun f d h => parse_flat_keys h, by decide⟩
  intro s d h kv hkv
  rcases scanTokens_ok_cases _ _ h with rfl | ⟨t, _, hok⟩
  · cases hkv
  · obtain ⟨ef, hef⟩ := tokenResult_ok hok
    exact parse_flat_keys hef kv hkv

/-- Witness for C10 at the concrete parse of `"H2O"`. -/
theorem c10_keys_in_table_witness : ("H".toList) ∈ CHEMICAL_SYMBOLS_L :=
  c10_keys_in_table.1 "H2O"
    [("H".toList, ⟨2, 0⟩), ("O".toList, ⟨1, 0⟩)] rfl
    ("H".toList, ⟨2, 0⟩) (List.mem_cons_self _ _)

/-! ## Digit strings and decimal literals -/

theorem digitsToNatAcc_eq :
    ∀ (l : List Char) (acc : Nat),
      digitsToNatAcc acc l = acc * 10 ^ l.length + digitsToNat l := by
  intro l
  induction l with
  | nil =>
    intro acc
    show acc = acc * 10 ^ 0 + 0
    ring
  | cons c cs ih =>
    intro acc
    have hl : digitsToNatAcc acc (c :: cs) =
        digitsToNatAcc (10 * acc + (c.toNat - 48)) cs := rfl
    have hr : digitsToNat (c :: cs) =
        digitsToNatAcc (10 * 0 + (c.toNat - 48)) cs := rfl
    rw [hl, ih, hr, ih, List.length_cons, pow_succ]
    ring

theorem digitsToNat_append (a b : List Char) :
    digitsToNat (a ++ b) = digitsToNat a * 10 ^ b.length + digitsToNat b := by
  induction a with
  | nil =>
    show digitsToNat b = 0 * 10 ^ b.length + digitsToNat b
    ring
  | cons c cs ih =>
    have h1 : digitsToNat (c :: (cs ++ b)) =
        digitsToNatAcc (10 * 0 + (c.toNat - 48)) (cs ++ b) := rfl
    have h2 : digitsToNat (c :: cs) =
        digitsToNatAcc (10 * 0 + (c.toNat - 48)) cs := rfl
    rw [List.cons_append, h1, digitsToNatAcc_eq, h2, digitsToNatAcc_eq, ih,
      List.length_append, pow_add]
    ring

theorem digitsToNat_zero_cons (l : List Char) :
    digitsToNat ('0' :: l) = digitsToNat l := rfl

theorem digitsToNat_replicate_zero (k : Nat) (l : List Char) :
    digitsToNat (List.replicate k '0' ++ l) = digitsToNat l := by
  induction k with
  | zero => rfl
  | succ n ih => rw [List.replicate_succ, List.cons_append, digitsToNat_zero_cons, ih]

theorem natDigitsGo_append :
    ∀ (fuel n : Nat) (acc : List Char),
      natDigitsGo fuel n acc = natDigitsGo fuel n [] ++ acc := by
  intro fuel
  induction fuel with
  | zero => intro n acc; rfl
  | succ m ih =>
    intro n acc
    by_cases h : n < 10
    · simp [natDigitsGo, h]
    · simp only [natDigitsGo, h, if_false]
      rw [ih (n / 10) (digitChar (n % 10) :: acc), ih (n / 10) [digitChar (n % 10)]]
      simp

theorem digitChar_toNat {k : Nat} (h : k < 10) : (digitChar k).toNat = 48 + k := by
  interval_cases k <;> rfl

theorem digitChar_isDigit {k : Nat} (h : k < 10) : isDigitC (digitChar k) = true := by
  interval_cases k <;> decide

theorem digitsToNat_natDigitsGo :
    ∀ (fuel n : Nat), n < fuel → digitsToNat (natDigitsGo fuel n []) = n := by
  intro fuel
  induction fuel with
  | zero => intro n h; omega
  | succ m ih =>
    intro n h
    by_cases h10 : n < 10
    · simp only [natDigitsGo, h10, if_true]
      show 10 * 0 + ((digitChar n).toNat - 48) = n
      rw [digitChar_toNat h10]
      omega
    · simp only [natDigitsGo, h10, if_false]
      rw [natDigitsGo_append, digitsToNat_append]
      have hlit : digitsToNat [digitChar (n % 10)] =
          10 * 0 + ((digitChar (n % 10)).toNat - 48) := rfl
      rw [hlit, digitChar_toNat (Nat.mod_lt _ (by omega)),
        ih (n / 10) (by omega)]
      simp only [List.length_singleton, pow_one]
      omega

theorem digitsToNat_natDigits (n : Nat) : digitsToNat (natDigits n) = n :=
  digitsToNat_natDigitsGo (n + 1) n (Nat.lt_succ_self n)

theorem natDigitsGo_all_digit :
    ∀ (fuel n : Nat) (acc : List Char),
      (∀ c ∈ acc, isDigitC c = true) →
      ∀ c ∈ natDigitsGo fuel n acc, isDigitC c = true := by
  intro fuel
  induction fuel with
  | zero => intro n acc hacc; exact hacc
  | succ m ih =>
    intro n acc hacc c hc
    by_cases h10 : n < 10
    · simp only [natDigitsGo, h10, if_true] at hc
      rcases List.mem_cons.mp hc with rfl | hm
      · exact digitChar_isDigit h10
      · exact hacc _ hm
    · simp only [natDigitsGo, h10, if_false] at hc
      refine ih (n / 10) _ ?_ c hc
      intro u hu
      rcases List.mem_cons.mp hu with rfl | hm
      · exact digitChar_isDigit (Nat.mod_lt _ (by omega))
      · exact hacc _ hm

theorem natDigits_all_digit (n : Nat) :
    ∀ c ∈ natDigits n, isDigitC c = true :=
  natDigitsGo_all_digit (n + 1) n [] (by intro c hc; cases hc)

theorem natDigits_ne_nil (n : Nat) : natDigits n ≠ [] := by
  unfold natDigits natDigitsGo
  by_cases h10 : n < 10
  · simp [h10]
  · simp only [h10, if_false]
    rw [natDigitsGo_append]
    simp

theorem digit_ne_dot {c : Char} (h : isDigitC c = true) : c ≠ '.' := by
  intro hc
  subst hc
  simp only [isDigitC, Bool.and_eq_true, decide_eq_true_eq] at h
  have h46 : ('.' : Char).toNat = 46 := rfl
  rw [h46] at h
  omega

theorem headSafe_of_alpha {c : Char} (h : isAlphaC c = true) :
    isDigitC c = false ∧ c ≠ '.' := by
  simp only [isAlphaC, Bool.or_eq_true, Bool.and_eq_true, decide_eq_true_eq] at h
  constructor
  · simp only [isDigitC, Bool.and_eq_false_iff, decide_eq_false_iff_not, not_le]
    omega
  · intro hc
    subst hc
    have h46 : ('.' : Char).toNat = 46 := rfl
    rw [h46] at h
    omega

theorem splitDot_no_dot {l : List Char} (h : ∀ c ∈ l, c ≠ '.') :
    splitDot l = (l, none) := by
  induction l with
  | nil => rfl
  | cons c cs ih =>
    have hc : c ≠ '.' := h c (List.mem_cons_self _ _)
    simp [splitDot, hc, ih fun u hu => h u (List.mem_cons_of_mem _ hu)]

theorem splitDot_append_dot {a : List Char} (b : List Char)
    (h : ∀ c ∈ a, c ≠ '.') :
    splitDot (a ++ '.' :: b) = (a, some b) := by
  induction a with
  | nil => simp [splitDot]
  | cons c cs ih =>
    have hc : c ≠ '.' := h c (List.mem_cons_self _ _)
    simp [splitDot, hc, ih fun u hu => h u (List.mem_cons_of_mem _ hu)]

theorem takeDigits_append {a r : List Char}
    (ha : ∀ c ∈ a, isDigitC c = true)
    (hr : ∀ c cs, r = c :: cs → isDigitC c = false) :
    takeDigits (a ++ r) = (a, r) := by
  induction a with
  | nil =>
    simp only [List.nil_append]
    cases r with
    | nil => rfl
    | cons c cs => simp [takeDigits, hr c cs rfl]
  | cons c cs ih =>
    have hc := ha c (List.mem_cons_self _ _)
    simp [takeDigits, hc, ih fun u hu => ha u (List.mem_cons_of_mem _ hu)]

theorem matchFloat_all_digits {D tail : List Char} (hne : D ≠ [])
    (hd : ∀ c ∈ D, isDigitC c = true) (ht : headSafe tail) :
    matchFloat (D ++ tail) = some (D, tail) := by
  have h1 : takeDigits (D ++ tail) = (D, tail) :=
    takeDigits_append hd fun c cs hcs => (ht c cs hcs).1
  have hie : D.isEmpty = false := by
    cases D
    · exact absurd rfl hne
    · rfl
  simp only [matchFloat, h1, hie, Bool.false_eq_true, if_false]
  cases tail with
  | nil => rfl
  | cons c cs =>
    have hcc := ht c cs rfl
    simp [hcc.2]

theorem matchFloat_with_dot {D1 D2 tail : List Char} (h1 : D1 ≠ []) (h2 : D2 ≠ [])
    (hd1 : ∀ c ∈ D1, isDigitC c = true) (hd2 : ∀ c ∈ D2, isDigitC c = true)
    (ht : headSafe tail) :
    matchFloat (D1 ++ '.' :: D2 ++ tail) = some (D1 ++ '.' :: D2, tail) := by
  have htd : takeDigits (D1 ++ '.' :: (D2 ++ tail)) = (D1, '.' :: (D2 ++ tail)) := by
    refine takeDigits_append hd1 ?_
    intro c cs hcs
    injection hcs with hc _
    rw [← hc]
    decide
  have htd2 : takeDigits (D2 ++ tail) = (D2, tail) :=
    takeDigits_append hd2 fun c cs hcs => (ht c cs hcs).1
  have hie1 : D1.isEmpty = false := by
    cases D1
    · exact absurd rfl h1
    · rfl
  have hie2 : D2.isEmpty = false := by
    cases D2
    · exact absurd rfl h2
    · rfl
  have hassoc : D1 ++ '.' :: D2 ++ tail = D1 ++ '.' :: (D2 ++ tail) := by simp
  rw [hassoc]
  simp only [matchFloat, htd, hie1, Bool.false_eq_true, if_false, htd2, hie2,
    if_pos rfl]
  simp

/-- Adding a decimal to `Decimal('0')` is the identity when the exponent is
non-positive (the only case this program produces). -/
theorem decZero_add {v : PyDecimal} (h : v.exp ≤ 0) : decZero.add v = v := by
  obtain ⟨c, e⟩ := v
  simp only [PyDecimal.add, decZero] at *
  have hm : min (0 : Int) e = e := min_eq_right h
  simp [hm]

/-- Case analysis of `str()` under plain (non-scientific) rendering: an
integer value (exponent 0) renders as its bare digit string; otherwise the
text is `D1.D2` where `D1 ++ D2` reads back as the coefficient and the
fraction part `D2` has exactly `-exp` digits. -/
theorem pyDecimalStr_cases {v : PyDecimal} (hp : plainPositiveB v = true) :
    (v.exp = 0 ∧ pyDecimalStr v = natDigits v.coeff) ∨
    (∃ D1 D2, pyDecimalStr v = D1 ++ '.' :: D2 ∧ D1 ≠ [] ∧ D2 ≠ [] ∧
      (∀ c ∈ D1, isDigitC c = true) ∧ (∀ c ∈ D2, isDigitC c = true) ∧
      digitsToNat (D1 ++ D2) = v.coeff ∧ (D2.length : Int) = -v.exp) := by
  have hp' := hp
  simp only [plainPositiveB, Bool.and_eq_true, decide_eq_true_eq] at hp'
  obtain ⟨⟨hc, he⟩, hadj⟩ := hp'
  have hnil : natDigits v.coeff ≠ [] := natDigits_ne_nil v.coeff
  have hdig : ∀ c ∈ natDigits v.coeff, isDigitC c = true :=
    natDigits_all_digit v.coeff
  have hrt : digitsToNat (natDigits v.coeff) = v.coeff :=
    digitsToNat_natDigits v.coeff
  have hLpos : 0 < (natDigits v.coeff).length := List.length_pos.mpr hnil
  have hcond : v.exp ≤ 0 ∧ -6 < v.exp + ((natDigits v.coeff).length : Int) :=
    ⟨he, hadj⟩
  simp only [pyDecimalStr, if_pos hcond, eq_self_iff_true, if_true]
  by_cases hdp : v.exp + ((natDigits v.coeff).length : Int) ≤ 0
  · simp only [if_pos hdp]
    right
    have hkz : (((-(v.exp + ((natDigits v.coeff).length : Int))).toNat : Int))
        = -(v.exp + ((natDigits v.coeff).length : Int)) :=
      Int.toNat_of_nonneg (by omega)
    refine ⟨['0'],
      List.replicate (-(v.exp + ((natDigits v.coeff).length : Int))).toNat '0'
        ++ natDigits v.coeff, by simp, by simp, ?_, ?_, ?_, ?_, ?_⟩
    · intro hcontra
      rcases List.append_eq_nil.mp hcontra with ⟨_, h2⟩
      exact hnil h2
    · intro c hcmem
      rcases List.mem_singleton.mp hcmem with rfl
      decide
    · intro c hcmem
      rcases List.mem_append.mp hcmem with hm | hm
      · rw [(List.eq_of_mem_replicate hm : c = '0')]
        decide
      · exact hdig c hm
    · rw [show (['0'] : List Char) ++
          (List.replicate (-(v.exp + ((natDigits v.coeff).length : Int))).toNat '0'
            ++ natDigits v.coeff) =
          '0' :: (List.replicate
              (-(v.exp + ((natDigits v.coeff).length : Int))).toNat '0'
            ++ natDigits v.coeff) from rfl,
        digitsToNat_zero_cons, digitsToNat_replicate_zero, hrt]
    · rw [List.length_append, List.length_replicate]
      push_cast
      omega
  · simp only [if_neg hdp]
    by_cases hL2 : ((natDigits v.coeff).length : Int)
        ≤ v.exp + ((natDigits v.coeff).length : Int)
    · have hexp0 : v.exp = 0 := by omega
      left
      refine ⟨hexp0, ?_⟩
      simp only [if_pos hL2]
      have hz : (v.exp + ((natDigits v.coeff).length : Int)
          - ((natDigits v.coeff).length : Int)).toNat = 0 := by
        rw [hexp0]
        simp
      simp [hz, he]
    · have hdpos : 0 < v.exp + ((natDigits v.coeff).length : Int) := by omega
      have hexpneg : v.exp < 0 := by omega
      have hdpL : (((v.exp + ((natDigits v.coeff).length : Int)).toNat : Int))
          = v.exp + ((natDigits v.coeff).length : Int) :=
        Int.toNat_of_nonneg hdpos.le
      have hdplt : (v.exp + ((natDigits v.coeff).length : Int)).toNat
          < (natDigits v.coeff).length := by omega
      have hdppos : 0 < (v.exp + ((natDigits v.coeff).length : Int)).toNat := by
        omega
      simp only [if_neg hL2]
      right
      refine ⟨(natDigits v.coeff).take
          (v.exp + ((natDigits v.coeff).length : Int)).toNat,
        (natDigits v.coeff).drop
          (v.exp + ((natDigits v.coeff).length : Int)).toNat,
        by simp, ?_, ?_, ?_, ?_, ?_, ?_⟩
      · apply List.length_pos.mp
        rw [List.length_take]
        omega
      · apply List.length_pos.mp
        rw [List.length_drop]
        omega
      · intro c hcmem
        exact hdig c ((List.take_sublist _ _).subset hcmem)
      · intro c hcmem
        exact hdig c ((List.drop_sublist _ _).subset hcmem)
      · rw [List.take_append_drop, hrt]
      · rw [List.length_drop]
        omega

theorem plainPositive_exp_le {v : PyDecimal} (h : plainPositiveB v = true) :
    v.exp ≤ 0 := by
  simp only [plainPositiveB, Bool.and_eq_true, decide_eq_true_eq] at h
  exact h.1.2

theorem plainPositive_coeff_ne {v : PyDecimal} (h : plainPositiveB v = true) :
    v.coeff ≠ 0 := by
  simp only [plainPositiveB, Bool.and_eq_true, decide_eq_true_eq] at h
  omega

theorem decFromLit_of_no_dot {l : List Char} (h : ∀ c ∈ l, c ≠ '.') :
    decFromLit l = ⟨digitsToNat l, 0⟩ := by
  unfold decFromLit
  rw [splitDot_no_dot h]

theorem decFromLit_of_dot {a : List Char} (b : List Char) (h : ∀ c ∈ a, c ≠ '.') :
    decFromLit (a ++ '.' :: b) = ⟨digitsToNat (a ++ b), -(b.length : Int)⟩ := by
  unfold decFromLit
  rw [splitDot_append_dot b h]

/-- Round-trip `Decimal(str(v)) = v`: the constructor inverts plain rendering. -/
theorem decFromLit_pyDecimalStr {v : PyDecimal} (hp : plainPositiveB v = true) :
    decFromLit (pyDecimalStr v) = v := by
  rcases pyDecimalStr_cases hp with ⟨hexp, heq⟩ |
    ⟨D1, D2, heq, h1, h2, hd1, hd2, hval, hlen⟩
  · rw [heq,
      decFromLit_of_no_dot fun c hc => digit_ne_dot (natDigits_all_digit v.coeff c hc),
      digitsToNat_natDigits, ← hexp]
  · rw [heq, decFromLit_of_dot D2 fun c hc => digit_ne_dot (hd1 c hc), hval,
      show -((D2.length : Int)) = v.exp by omega]

theorem pyDecimalStr_head_digit {v : PyDecimal} (hp : plainPositiveB v = true) :
    ∃ c r', pyDecimalStr v = c :: r' ∧ isDigitC c = true := by
  rcases pyDecimalStr_cases hp with ⟨_, heq⟩ | ⟨D1, D2, heq, h1, _, hd1, _, _, _⟩
  · obtain ⟨c, r', hds⟩ := List.exists_cons_of_ne_nil (natDigits_ne_nil v.coeff)
    exact ⟨c, r', by rw [heq, hds],
      natDigits_all_digit v.coeff c (by rw [hds]; exact List.mem_cons_self _ _)⟩
  · obtain ⟨c, r', hd1s⟩ := List.exists_cons_of_ne_nil h1
    refine ⟨c, r' ++ '.' :: D2, ?_, hd1 c (by rw [hd1s]; exact List.mem_cons_self _ _)⟩
    rw [heq, hd1s]
    simp

theorem pyDecimalStr_ne_nil {v : PyDecimal} (hp : plainPositiveB v = true) :
    pyDecimalStr v ≠ [] := by
  obtain ⟨c, r', heq, _⟩ := pyDecimalStr_head_digit hp
  rw [heq]
  simp

/-- The greedy quantity match consumes exactly a serialized quantity. -/
theorem matchFloat_pyDecimalStr {v : PyDecimal} (hp : plainPositiveB v = true)
    {tail : List Char} (ht : headSafe tail) :
    matchFloat (pyDecimalStr v ++ tail) = some (pyDecimalStr v, tail) := by
  rcases pyDecimalStr_cases hp with ⟨_, heq⟩ | ⟨D1, D2, heq, h1, h2, hd1, hd2, _, _⟩
  · rw [heq]
    exact matchFloat_all_digits (natDigits_ne_nil _) (natDigits_all_digit _) ht
  · rw [heq]
    exact matchFloat_with_dot h1 h2 hd1 hd2 ht

/-! ## Dict lemmas for the round-trip -/

theorem dictGet_eq_none_append {a : RatioDict} (b : RatioDict) {k : List Char}
    (h : dictGet a k = none) : dictGet (a ++ b) k = dictGet b k := by
  induction a with
  | nil => rfl
  | cons kv rest ih =>
    obtain ⟨k0, v0⟩ := kv
    by_cases hk : k0 = k
    · simp [dictGet, hk] at h
    · simp only [dictGet, hk, if_false] at h
      simp only [List.cons_append, dictGet, hk, if_false]
      exact ih h

theorem dictSet_of_absent {a : RatioDict} {k : List Char} {v : PyDecimal}
    (h : dictGet a k = none) : dictSet a k v = a ++ [(k, v)] := by
  induction a with
  | nil => rfl
  | cons kv rest ih =>
    obtain ⟨k0, v0⟩ := kv
    by_cases hk : k0 = k
    · simp [dictGet, hk] at h
    · simp only [dictGet, hk, if_false] at h
      simp only [dictSet, hk, if_false, List.cons_append, ih h]

theorem mem_of_dictGet_some {d : RatioDict} {k : List Char} {v : PyDecimal}
    (h : dictGet d k = some v) : (k, v) ∈ d := by
  induction d with
  | nil => cases h
  | cons kv rest ih =>
    obtain ⟨k0, v0⟩ := kv
    by_cases hk : k0 = k
    · subst hk
      simp only [dictGet, eq_self_iff_true, if_true, Option.some.injEq] at h
      rw [← h]
      exact List.mem_cons_self _ _
    · simp only [dictGet, hk, if_false] at h
      exact List.mem_cons_of_mem _ (ih h)

theorem symbols_desc_ne_nil : ∀ sym ∈ SYMBOLS_DESC, sym ≠ [] := by decide

theorem emitEntry_head_alpha {d : RatioDict} {sym : List Char}
    (hmem : sym ∈ SYMBOLS_DESC) {c : Char} {cs : List Char}
    (h : emitEntry d sym = c :: cs) : isAlphaC c = true := by
  have hsplit : dictGet d sym = none ∨ ∃ v, dictGet d sym = some v := by
    cases dictGet d sym
    · exact Or.inl rfl
    · exact Or.inr ⟨_, rfl⟩
  rcases hsplit with hg | ⟨v, hg⟩
  · simp [emitEntry, hg] at h
  · by_cases hv : v.coeff = 0
    · simp [emitEntry, hg, hv] at h
    · simp only [emitEntry, hg, hv, ne_eq, not_false_iff, if_true] at h
      obtain ⟨s0, st, hs⟩ := List.exists_cons_of_ne_nil (symbols_desc_ne_nil sym hmem)
      rw [hs, List.cons_append] at h
      injection h with hc _
      rw [← hc]
      exact List.all_eq_true.mp (symbols_desc_alpha sym hmem) s0
        (by rw [hs]; exact List.mem_cons_self _ _)

/-- The serializer's output after a quantity starts (if at all) with the
first letter of another symbol — never with a digit or a dot. -/
theorem headSafe_flattenEmit {d : RatioDict} :
    ∀ {syms : List (List Char)}, (∀ sym ∈ syms, sym ∈ SYMBOLS_DESC) →
      headSafe (flattenEmit d syms) := by
  intro syms
  induction syms with
  | nil =>
    intro _ c cs h
    cases h
  | cons sym rest ih =>
    intro hmem c cs heq
    have hstep : flattenEmit d (sym :: rest) = emitEntry d sym ++ flattenEmit d rest := rfl
    rw [hstep] at heq
    rcases hE : emitEntry d sym with _ | ⟨e0, es⟩
    · rw [hE, List.nil_append] at heq
      exact ih (fun u hu => hmem u (List.mem_cons_of_mem _ hu)) c cs heq
    · rw [hE, List.cons_append] at heq
      injection heq with hc _
      have halpha := emitEntry_head_alpha (hmem sym (List.mem_cons_self _ _)) hE
      rw [hc] at halpha
      exact headSafe_of_alpha halpha

/-- The symbol matcher consumes exactly the emitted symbol at the head of a
serialized chunk (the following character is a digit, and 2-letter symbols
are found before their 1-letter prefixes). -/
theorem matchSymbol_chunk {sym : List Char} (hmem : sym ∈ SYMBOLS_DESC)
    {v : PyDecimal} (hp : plainPositiveB v = true) (tail : List Char) :
    matchSymbol (sym ++ (pyDecimalStr v ++ tail)) = some sym := by
  obtain ⟨c, r', hstr, hcd⟩ := pyDecimalStr_head_digit hp
  rcases symbols_desc_lengths sym hmem with h1 | h2
  · obtain ⟨a, rfl⟩ := List.length_eq_one.mp h1
    rw [hstr]
    simp only [List.cons_append, List.nil_append]
    exact matchSymbol_one hmem hcd
  · obtain ⟨a, b, rfl⟩ := List.length_eq_two.mp h2
    simp only [List.cons_append, List.nil_append]
    exact matchSymbol_two hmem

theorem parseExpandedGo_cons (n : Nat) (c : Char) (cs : List Char) (acc : RatioDict) :
    parseExpandedGo (n + 1) (c :: cs) acc =
      match matchSymbol (c :: cs) with
      | none => .error flatParseErr
      | some sym =>
        match matchFloat ((c :: cs).drop sym.length) with
        | none =>
          parseExpandedGo n ((c :: cs).drop sym.length)
            (dictSet acc sym (((dictGet acc sym).getD decZero).add decOne))
        | some (lit, rest2) =>
          parseExpandedGo n rest2
            (dictSet acc sym
              (((dictGet acc sym).getD decZero).add (decFromLit lit))) := rfl

theorem drop_length_append (a b : List Char) : (a ++ b).drop a.length = b := by
  simp

/-- Core round-trip induction: parsing the concatenated per-symbol
contributions of the serializer accumulates exactly the emitted entries,
in order, after the given accumulator. -/
theorem parse_flattenEmit :
    ∀ (syms : List (List Char)) (fuel : Nat) (acc d : RatioDict),
      (flattenEmit d syms).length < fuel →
      (∀ sym ∈ syms, sym ∈ SYMBOLS_DESC) →
      syms.Nodup →
      (∀ sym ∈ syms, dictGet acc sym = none) →
      (∀ k v, dictGet d k = some v → v.coeff ≠ 0 → plainPositiveB v = true) →
      parseExpandedGo fuel (flattenEmit d syms) acc =
        .ok (acc ++ emittedPairs d syms) := by
  intro syms
  induction syms with
  | nil =>
    intro fuel acc d _ _ _ _ _
    rw [show flattenEmit d [] = [] from rfl, parseExpandedGo_nil,
      show emittedPairs d [] = [] from rfl, List.append_nil]
  | cons sym rest ih =>
    intro fuel acc d hfuel hmem hnd hacc hgood
    have hmems : sym ∈ SYMBOLS_DESC := hmem sym (List.mem_cons_self _ _)
    have hmemr : ∀ u ∈ rest, u ∈ SYMBOLS_DESC :=
      fun u hu => hmem u (List.mem_cons_of_mem _ hu)
    have hndr : rest.Nodup := (List.nodup_cons.mp hnd).2
    have hsymr : sym ∉ rest := (List.nodup_cons.mp hnd).1
    have hstep : flattenEmit d (sym :: rest) =
        emitEntry d sym ++ flattenEmit d rest := rfl
    have haccr : ∀ u ∈ rest, dictGet acc u = none :=
      fun u hu => hacc u (List.mem_cons_of_mem _ hu)
    have hsplit : dictGet d sym = none ∨ ∃ v, dictGet d sym = some v := by
      cases dictGet d sym
      · exact Or.inl rfl
      · exact Or.inr ⟨_, rfl⟩
    rcases hsplit with hg | ⟨v, hg⟩
    · have hE : emitEntry d sym = [] := by simp [emitEntry, hg]
      have hP : emittedPairs d (sym :: rest) = emittedPairs d rest := by
        simp [emittedPairs, hg]
      rw [hstep, hE, List.nil_append] at hfuel ⊢
      rw [hP]
      exact ih fuel acc d hfuel hmemr hndr haccr hgood
    · by_cases hv : v.coeff = 0
      · have hE : emitEntry d sym = [] := by simp [emitEntry, hg, hv]
        have hP : emittedPairs d (sym :: rest) = emittedPairs d rest := by
          simp [emittedPairs, hg, hv]
        rw [hstep, hE, List.nil_append] at hfuel ⊢
        rw [hP]
        exact ih fuel acc d hfuel hmemr hndr haccr hgood
      · have hplain : plainPositiveB v = true := hgood sym v hg hv
        have hE : emitEntry d sym = sym ++ pyDecimalStr v := by
          simp [emitEntry, hg, hv]
        have hP : emittedPairs d (sym :: rest) =
            (sym, v) :: emittedPairs d rest := by
          simp [emittedPairs, hg, hv]
        rw [hstep, hE] at hfuel ⊢
        rw [hP, List.append_assoc]
        obtain ⟨c0, s0, hsym0⟩ :=
          List.exists_cons_of_ne_nil (symbols_desc_ne_nil sym hmems)
        cases fuel with
        | zero => omega
        | succ n =>
          have hform : sym ++ (pyDecimalStr v ++ flattenEmit d rest) =
              c0 :: (s0 ++ (pyDecimalStr v ++ flattenEmit d rest)) := by
            rw [hsym0, List.cons_append]
          rw [hform, parseExpandedGo_cons]
          have hms : matchSymbol
              (c0 :: (s0 ++ (pyDecimalStr v ++ flattenEmit d rest))) = some sym := by
            rw [← hform]
            exact matchSymbol_chunk hmems hplain _
          simp only [hms]
          have hdrop : (c0 :: (s0 ++ (pyDecimalStr v ++ flattenEmit d rest))).drop
              sym.length = pyDecimalStr v ++ flattenEmit d rest := by
            rw [← hform]
            exact drop_length_append _ _
          simp only [hdrop]
          have hmf : matchFloat (pyDecimalStr v ++ flattenEmit d rest) =
              some (pyDecimalStr v, flattenEmit d rest) :=
            matchFloat_pyDecimalStr hplain (headSafe_flattenEmit hmemr)
          simp only [hmf]
          have haccs : dictGet acc sym = none := hacc sym (List.mem_cons_self _ _)
          simp only [haccs, Option.getD_none]
          rw [decFromLit_pyDecimalStr hplain,
            decZero_add (plainPositive_exp_le hplain),
            dictSet_of_absent haccs]
          have hfuel' : (flattenEmit d rest).length < n := by
            have h1 : 1 ≤ sym.length := by
              rw [hsym0]
              simp
            have h2 : 1 ≤ (pyDecimalStr v).length :=
              List.length_pos.mpr (pyDecimalStr_ne_nil hplain)
            simp only [List.length_append] at hfuel
            omega
          have hacc' : ∀ u ∈ rest, dictGet (acc ++ [(sym, v)]) u = none := by
            intro u hu
            rw [dictGet_eq_none_append _ (haccr u hu)]
            have hne : sym ≠ u := fun he => hsymr (he ▸ hu)
            simp [dictGet, hne]
          rw [ih n (acc ++ [(sym, v)]) d hfuel' hmemr hndr hacc' hgood]
          simp

theorem emittedPairs_get_of_none {d : RatioDict} {k : List Char}
    (h : dictGet d k = none) :
    ∀ syms : List (List Char), dictGet (emittedPairs d syms) k = none := by
  intro syms
  induction syms with
  | nil => rfl
  | cons sym rest ih =>
    have hsplit : dictGet d sym = none ∨ ∃ v, dictGet d sym = some v := by
      cases dictGet d sym
      · exact Or.inl rfl
      · exact Or.inr ⟨_, rfl⟩
    rcases hsplit with hg | ⟨v, hg⟩
    · rw [show emittedPairs d (sym :: rest) = emittedPairs d rest from by
        simp [emittedPairs, hg]]
      exact ih
    · by_cases hv : v.coeff = 0
      · rw [show emittedPairs d (sym :: rest) = emittedPairs d rest from by
          simp [emittedPairs, hg, hv]]
        exact ih
      · rw [show emittedPairs d (sym :: rest) = (sym, v) :: emittedPairs d rest from by
          simp [emittedPairs, hg, hv]]
        have hne : sym ≠ k := by
          intro he
          rw [he] at hg
          rw [hg] at h
          cases h
        simp only [dictGet, hne, if_false]
        exact ih

theorem emittedPairs_get_of_some {d : RatioDict} {k : List Char} {v : PyDecimal}
    (hget : dictGet d k = some v) (hv : v.coeff ≠ 0) :
    ∀ {syms : List (List Char)}, k ∈ syms →
      dictGet (emittedPairs d syms) k = some v := by
  intro syms
  induction syms with
  | nil => intro hk; cases hk
  | cons sym rest ih =>
    intro hk
    by_cases hsk : sym = k
    · subst hsk
      rw [show emittedPairs d (sym :: rest) = (sym, v) :: emittedPairs d rest from by
        simp [emittedPairs, hget, hv]]
      simp [dictGet]
    · have hkr : k ∈ rest := by
        rcases List.mem_cons.mp hk with rfl | hm
        · exact absurd rfl hsk
        · exact hm
      have hsplit : dictGet d sym = none ∨ ∃ w, dictGet d sym = some w := by
        cases dictGet d sym
        · exact Or.inl rfl
        · exact Or.inr ⟨_, rfl⟩
      rcases hsplit with hg | ⟨w, hg⟩
      · rw [show emittedPairs d (sym :: rest) = emittedPairs d rest from by
          simp [emittedPairs, hg]]
        exact ih hkr
      · by_cases hw : w.coeff = 0
        · rw [show emittedPairs d (sym :: rest) = emittedPairs d rest from by
            simp [emittedPairs, hg, hw]]
          exact ih hkr
        · rw [show emittedPairs d (sym :: rest) = (sym, w) :: emittedPairs d rest from by
            simp [emittedPairs, hg, hw]]
          simp only [dictGet, hsk, if_false]
          exact ih hkr

/-- The conjunction `contextSafeB` gives back its plain-rendering half. -/
theorem plainPositive_of_contextSafe {v : PyDecimal}
    (h : contextSafeB v = true) : plainPositiveB v = true := by
  simp only [contextSafeB, Bool.and_eq_true] at h
  exact h.1

/-- Claim C6 (amended): for every ratio mapping whose keys are element
symbols and whose values are positive decimals rendered without exponent
notation (exponent at most 0 and adjusted exponent above -7; such a
mapping in particular has no zero-valued entries) and carrying at most 28
significant digits — the default `decimal` context precision, within which
the program's only arithmetic on these values, the accumulating addition
`Decimal('0') + v`, is exact, so the exact-decimal embedding coincides
with CPython — serializing it and re-parsing the result with the Flat
Formula Parser succeeds and reproduces the original mapping exactly: the
output is the mapping's entries in table order, and every key looks up to
the very same decimal. -/
theorem c6_roundtrip_amended (d : RatioDict)
    (H : ∀ kv ∈ d, kv.1 ∈ CHEMICAL_SYMBOLS_L ∧ contextSafeB kv.2 = true) :
    parse_atomic_ratio_from_expanded_chemical_formula
      (convert_ratio_dict_to_str d) = .ok (emittedPairs d CHEMICAL_SYMBOLS_L) ∧
    ∀ k, dictGet (emittedPairs d CHEMICAL_SYMBOLS_L) k = dictGet d k := by
  have hgood : ∀ k v, dictGet d k = some v → v.coeff ≠ 0 →
      plainPositiveB v = true :=
    fun k v hget _ =>
      plainPositive_of_contextSafe (H (k, v) (mem_of_dictGet_some hget)).2
  constructor
  · unfold parse_atomic_ratio_from_expanded_chemical_formula
    rw [serialize_eq_flattenEmit]
    have hmain := parse_flattenEmit CHEMICAL_SYMBOLS_L
      ((flattenEmit d CHEMICAL_SYMBOLS_L).length + 1) [] d
      (Nat.lt_succ_self _) mem_desc_of_mem_table (by decide)
      (fun sym _ => rfl) hgood
    simpa using hmain
  · intro k
    have hsplit : dictGet d k = none ∨ ∃ v, dictGet d k = some v := by
      cases dictGet d k
      · exact Or.inl rfl
      · exact Or.inr ⟨_, rfl⟩
    rcases hsplit with hg | ⟨v, hg⟩
    · rw [hg, emittedPairs_get_of_none hg]
    · have hkv := H (k, v) (mem_of_dictGet_some hg)
      have hvne : v.coeff ≠ 0 :=
        plainPositive_coeff_ne (plainPositive_of_contextSafe hkv.2)
      rw [hg, emittedPairs_get_of_some hg hvne hkv.1]

/-- Witness for the amended C6 at a concrete two-entry mapping, listed in
reverse table order with values 0.7 and 1. -/
theorem c6_roundtrip_amended_witness :
    (∀ kv ∈ ([(('P' :: ['b']), (⟨1, 0⟩ : PyDecimal)),
        (('T' :: ['e']), (⟨7, -1⟩ : PyDecimal))] : RatioDict),
      kv.1 ∈ CHEMICAL_SYMBOLS_L ∧ contextSafeB kv.2 = true) ∧
    (parse_atomic_ratio_from_expanded_chemical_formula
      (convert_ratio_dict_to_str
        [(('P' :: ['b']), ⟨1, 0⟩), (('T' :: ['e']), ⟨7, -1⟩)]) =
      .ok (emittedPairs
        [(('P' :: ['b']), ⟨1, 0⟩), (('T' :: ['e']), ⟨7, -1⟩)]
        CHEMICAL_SYMBOLS_L) ∧
    ∀ k, dictGet (emittedPairs
        [(('P' :: ['b']), ⟨1, 0⟩), (('T' :: ['e']), ⟨7, -1⟩)]
        CHEMICAL_SYMBOLS_L) k =
      dictGet [(('P' :: ['b']), ⟨1, 0⟩), (('T' :: ['e']), ⟨7, -1⟩)] k) :=
  ⟨by decide, c6_roundtrip_amended _ (by decide)⟩

/-! ## Fuel adequacy: the flat-parser loop -/

theorem takeDigits_spec (s : List Char) :
    (takeDigits s).1 ++ (takeDigits s).2 = s ∧
    ∀ c ∈ (takeDigits s).1, isDigitC c = true := by
  induction s with
  | nil => exact ⟨rfl, by intro c hc; cases hc⟩
  | cons c cs ih =>
    by_cases hc : isDigitC c = true
    · simp only [takeDigits, hc, if_true]
      refine ⟨by rw [List.cons_append, ih.1], ?_⟩
      intro u hu
      rcases List.mem_cons.mp hu with rfl | hm
      · exact hc
      · exact ih.2 u hm
    · simp only [takeDigits, hc, Bool.false_eq_true, if_false]
      exact ⟨rfl, by intro u hu; cases hu⟩

theorem matchFloat_some :
    ∀ {s lit rest2 : List Char}, matchFloat s = some (lit, rest2) →
      s = lit ++ rest2 ∧ lit ≠ [] ∧ ∀ c ∈ lit, isDigitC c = true ∨ c = '.' := by
  intro s lit rest2 h
  obtain ⟨hsp, hsd⟩ := takeDigits_spec s
  have hne : ¬(takeDigits s).1.isEmpty = true → (takeDigits s).1 ≠ [] := by
    intro hh
    cases hq : (takeDigits s).1
    · rw [hq] at hh
      exact absurd rfl hh
    · simp
  unfold matchFloat at h
  split at h
  · cases h
  · rename_i hemp
    split at h
    · rename_i c r2 hq
      split at h
      · rename_i hdot
        obtain ⟨hsp2, hsd2⟩ := takeDigits_spec r2
        split at h
        · injection h with h1
          injection h1 with h2 h3
          subst h2
          subst h3
          exact ⟨hsp.symm, hne hemp, fun u hu => Or.inl (hsd u hu)⟩
        · rename_i hemp2
          injection h with h1
          injection h1 with h2 h3
          subst h2
          subst h3
          refine ⟨?_, by simp, ?_⟩
          · calc s = (takeDigits s).1 ++ (takeDigits s).2 := hsp.symm
              _ = (takeDigits s).1 ++ (c :: r2) := by rw [hq]
              _ = (takeDigits s).1 ++
                  (c :: ((takeDigits r2).1 ++ (takeDigits r2).2)) := by rw [hsp2]
              _ = ((takeDigits s).1 ++ c :: (takeDigits r2).1) ++
                  (takeDigits r2).2 := by simp
          · intro u hu
            rcases List.mem_append.mp hu with hm | hm
            · exact Or.inl (hsd u hm)
            · rcases List.mem_cons.mp hm with rfl | hm2
              · exact Or.inr hdot
              · exact Or.inl (hsd2 u hm2)
      · injection h with h1
        injection h1 with h2 h3
        subst h2
        subst h3
        exact ⟨hsp.symm, hne hemp, fun u hu => Or.inl (hsd u hu)⟩
    · injection h with h1
      injection h1 with h2 h3
      subst h2
      subst h3
      exact ⟨hsp.symm, hne hemp, fun u hu => Or.inl (hsd u hu)⟩

/-- The flat-parser loop result does not depend on the fuel once the fuel
exceeds the input length: each iteration consumes at least the matched
symbol, so the fuel `length + 1` used by
`parse_atomic_ratio_from_expanded_chemical_formula` never runs out. -/
theorem parseExpandedGo_fuel_irrel :
    ∀ (n m : Nat) (f : List Char) (acc : RatioDict),
      f.length < n → f.length < m →
      parseExpandedGo n f acc = parseExpandedGo m f acc := by
  intro n
  induction n with
  | zero =>
    intro m f acc hn _
    omega
  | succ n ih =>
    intro m f acc hn hm
    cases f with
    | nil => rw [parseExpandedGo_nil, parseExpandedGo_nil]
    | cons c cs =>
      cases m with
      | zero => omega
      | succ m' =>
        rw [parseExpandedGo_cons, parseExpandedGo_cons]
        have hsplit : matchSymbol (c :: cs) = none ∨
            ∃ sym, matchSymbol (c :: cs) = some sym := by
          cases matchSymbol (c :: cs)
          · exact Or.inl rfl
          · exact Or.inr ⟨_, rfl⟩
        rcases hsplit with hms | ⟨sym, hms⟩
        · simp only [hms]
        · simp only [hms]
          have hsymlen : 1 ≤ sym.length := by
            have hsnil := symbols_desc_ne_nil sym (findPrefixIn_mem hms)
            cases hs : sym
            · exact absurd hs hsnil
            · simp [hs]
          have hcs : (c :: cs).length = cs.length + 1 := rfl
          have hrest : ((c :: cs).drop sym.length).length ≤ cs.length := by
            rw [List.length_drop]
            omega
          have hsplit2 : matchFloat ((c :: cs).drop sym.length) = none ∨
              ∃ p, matchFloat ((c :: cs).drop sym.length) = some p := by
            cases matchFloat ((c :: cs).drop sym.length)
            · exact Or.inl rfl
            · exact Or.inr ⟨_, rfl⟩
          rcases hsplit2 with hmf | ⟨⟨lit, rest2⟩, hmf⟩
          · simp only [hmf]
            exact ih m' ((c :: cs).drop sym.length) _
              (by rw [hcs] at hn; omega) (by rw [hcs] at hm; omega)
          · simp only [hmf]
            obtain ⟨heq, hlit, _⟩ := matchFloat_some hmf
            have hlitlen : 1 ≤ lit.length := List.length_pos.mpr hlit
            have hr2 : ((c :: cs).drop sym.length).length =
                lit.length + rest2.length := by
              rw [heq, List.length_append]
            exact ih m' rest2 _
              (by rw [hcs] at hn; omega) (by rw [hcs] at hm; omega)

/-! ## Fuel adequacy: the expansion loop -/

theorem pyFind_decomp :
    ∀ {s : List Char} {c : Char} {n : Nat}, pyFind c s = (n : Int) →
      ∃ u w, s = u ++ c :: w ∧ c ∉ u ∧ u.length = n := by
  intro s
  induction s with
  | nil =>
    intro c n h
    rw [show pyFind c [] = -1 from rfl] at h
    omega
  | cons a as ih =>
    intro c n h
    simp only [pyFind] at h
    by_cases hac : a = c
    · rw [if_pos hac] at h
      have hn : n = 0 := by omega
      subst hn
      exact ⟨[], as, by simp [hac], by simp, rfl⟩
    · rw [if_neg hac] at h
      by_cases hr : pyFind c as < 0
      · rw [if_pos hr] at h
        omega
      · rw [if_neg hr] at h
        push_neg at hr
        obtain ⟨k, hk⟩ : ∃ k : Nat, pyFind c as = (k : Int) :=
          ⟨(pyFind c as).toNat, (Int.toNat_of_nonneg hr).symm⟩
        obtain ⟨u, w, hsw, hcu, hul⟩ := ih hk
        rw [hk] at h
        refine ⟨a :: u, w, by rw [hsw, List.cons_append], ?_, ?_⟩
        · intro hmem
          rcases List.mem_cons.mp hmem with heq | hm
          · exact hac heq.symm
          · exact hcu hm
        · simp only [List.length_cons, hul]
          omega

theorem lastIdxC_lt :
    ∀ {l : List Char} {c : Char} {n : Nat},
      lastIdxC c l = (n : Int) → n < l.length := by
  intro l
  induction l with
  | nil =>
    intro c n h
    rw [show lastIdxC c [] = -1 from rfl] at h
    omega
  | cons a as ih =>
    intro c n h
    simp only [lastIdxC] at h
    by_cases hr : 0 ≤ lastIdxC c as
    · rw [if_pos hr] at h
      obtain ⟨k, hk⟩ : ∃ k : Nat, lastIdxC c as = (k : Int) :=
        ⟨(lastIdxC c as).toNat, (Int.toNat_of_nonneg hr).symm⟩
      have hklt := ih hk
      rw [hk] at h
      simp only [List.length_cons]
      omega
    · rw [if_neg hr] at h
      by_cases hac : a = c
      · rw [if_pos hac] at h
        simp only [List.length_cons]
        omega
      · rw [if_neg hac] at h
        omega

theorem intSigned_chars (n : Int) :
    ∀ ch ∈ intSigned n, isDigitC ch = true ∨ ch = '+' ∨ ch = '-' := by
  intro ch hch
  unfold intSigned at hch
  split at hch
  · rcases List.mem_cons.mp hch with rfl | hm
    · exact Or.inr (Or.inr rfl)
    · exact Or.inl (natDigits_all_digit _ ch hm)
  · rcases List.mem_cons.mp hch with rfl | hm
    · exact Or.inr (Or.inl rfl)
    · exact Or.inl (natDigits_all_digit _ ch hm)

theorem mem_ite_or {c : Prop} [Decidable c] {x : Char} {X Y : List Char}
    (h : x ∈ if c then X else Y) : x ∈ X ∨ x ∈ Y := by
  split at h
  · exact Or.inl h
  · exact Or.inr h

/-- Every character of a rendered decimal is a digit, a dot, an exponent
marker, or a sign. -/
theorem pyDecimalStr_chars (v : PyDecimal) :
    ∀ ch ∈ pyDecimalStr v,
      isDigitC ch = true ∨ ch = '.' ∨ ch = 'E' ∨ ch = '+' ∨ ch = '-' := by
  intro ch hch
  simp only [pyDecimalStr, List.mem_append] at hch
  rcases hch with (h | h) | h
  · rcases mem_ite_or h with h1 | h
    · rcases List.mem_singleton.mp h1 with rfl
      exact Or.inl (by decide)
    · rcases mem_ite_or h with h1 | h1
      · rcases List.mem_append.mp h1 with hm | hm
        · exact Or.inl (natDigits_all_digit _ ch hm)
        · rw [List.eq_of_mem_replicate hm]
          exact Or.inl (by decide)
      · exact Or.inl (natDigits_all_digit _ ch ((List.take_sublist _ _).subset h1))
  · rcases mem_ite_or h with h1 | h
    · rcases List.mem_cons.mp h1 with rfl | hm
      · exact Or.inr (Or.inl rfl)
      · rcases List.mem_append.mp hm with hm2 | hm2
        · rw [List.eq_of_mem_replicate hm2]
          exact Or.inl (by decide)
        · exact Or.inl (natDigits_all_digit _ ch hm2)
    · rcases mem_ite_or h with h1 | h1
      · cases h1
      · rcases List.mem_cons.mp h1 with rfl | hm
        · exact Or.inr (Or.inl rfl)
        · exact Or.inl (natDigits_all_digit _ ch ((List.drop_sublist _ _).subset hm))
  · rcases mem_ite_or h with h1 | h1
    · cases h1
    · rcases List.mem_cons.mp h1 with rfl | hm
      · exact Or.inr (Or.inr (Or.inl rfl))
      · rcases intSigned_chars _ ch hm with hd | hs | hs
        · exact Or.inl hd
        · exact Or.inr (Or.inr (Or.inr (Or.inl hs)))
        · exact Or.inr (Or.inr (Or.inr (Or.inr hs)))

theorem rparen_not_mem_pyDecimalStr (v : PyDecimal) : ')' ∉ pyDecimalStr v := by
  intro h
  rcases pyDecimalStr_chars v ')' h with hd | hs | hs | hs | hs
  · cases hd
  all_goals cases hs

theorem table_no_rparen : ∀ sym ∈ CHEMICAL_SYMBOLS_L, ')' ∉ sym := by decide

theorem rparen_not_mem_flattenEmit {d : RatioDict} :
    ∀ (syms : List (List Char)), (∀ sym ∈ syms, sym ∈ CHEMICAL_SYMBOLS_L) →
      ')' ∉ flattenEmit d syms := by
  intro syms
  induction syms with
  | nil =>
    intro _ h
    cases h
  | cons sym rest ih =>
    intro hmem h
    rw [show flattenEmit d (sym :: rest) = emitEntry d sym ++ flattenEmit d rest
      from rfl] at h
    rcases List.mem_append.mp h with h1 | h2
    · have hsplit : dictGet d sym = none ∨ ∃ v, dictGet d sym = some v := by
        cases dictGet d sym
        · exact Or.inl rfl
        · exact Or.inr ⟨_, rfl⟩
      rcases hsplit with hg | ⟨v, hg⟩
      · simp [emitEntry, hg] at h1
      · by_cases hv : v.coeff = 0
        · simp [emitEntry, hg, hv] at h1
        · rw [show emitEntry d sym = sym ++ pyDecimalStr v from by
            simp [emitEntry, hg, hv]] at h1
          rcases List.mem_append.mp h1 with hm | hm
          · exact table_no_rparen sym (hmem sym (List.mem_cons_self _ _)) hm
          · exact rparen_not_mem_pyDecimalStr v hm
    · exact ih (fun u hu => hmem u (List.mem_cons_of_mem _ hu)) h2

/-- The serializer never emits a closing parenthesis. -/
theorem rparen_not_mem_serialize (d : RatioDict) :
    ')' ∉ convert_ratio_dict_to_str d := by
  rw [serialize_eq_flattenEmit]
  exact rparen_not_mem_flattenEmit CHEMICAL_SYMBOLS_L (fun _ h => h)

theorem serialize_count_rparen (d : RatioDict) :
    List.count ')' (convert_ratio_dict_to_str d) = 0 :=
  List.count_eq_zero.mpr (rparen_not_mem_serialize d)

/-- A successful expansion step either leaves the string unchanged (only
possible when no pairing parenthesis was found) or removes exactly one `)`:
the spliced-in serialization contains none, the consumed multiplier literal
contains none, and the `)` at the split position disappears. -/
theorem countR_expand {f f' : List Char}
    (h : expand_innermost_atomic_ratio f = .ok f') :
    f' = f ∨ countRParen f' + 1 = countRParen f := by
  simp only [ expand_innermost_atomic_ratio] at h
  split at h
  · split at h
    · left
      injection h with h1
      exact h1.symm
    · cases h
  · rename_i hrpos
    split at h
    · cases h
    · rename_i hlpos
      split at h
      · cases h
      · rename_i d hd
        split at h
        · cases h
        · rename_i p hp
          right
          injection h with h1
          set r := (pyFind ')' f).toNat with hrdef
          set l := (pyRfind '(' f (pyFind ')' f)).toNat with hldef
          have hfind : pyFind ')' f = (r : Int) :=
            (Int.toNat_of_nonneg (by omega)).symm
          obtain ⟨u, w, hsw, hru, hul⟩ := pyFind_decomp hfind
          have hflen : f.length = u.length + (w.length + 1) := by
            rw [hsw]
            simp [List.length_append]
          have hslice : pySliceEnd f.length (pyFind ')' f) = r := by
            rw [hfind]
            unfold pySliceEnd
            rw [if_neg (by omega), Int.toNat_natCast]
            omega
          have hrf : pyRfind '(' f (pyFind ')' f) = lastIdxC '(' u := by
            unfold pyRfind
            rw [hslice, hsw, ← hul, List.take_left u (')' :: w)]
          have hlval : pyRfind '(' f (pyFind ')' f) = (l : Int) :=
            (Int.toNat_of_nonneg (by omega)).symm
          have hllt : l < r := by
            rw [hrf] at hlval
            have := lastIdxC_lt hlval
            omega
          have htl : f.take l = u.take l := by
            rw [hsw]
            exact List.take_append_of_le_length (by omega)
          have hctl : List.count ')' (f.take l) = 0 := by
            rw [htl]
            apply List.count_eq_zero.mpr
            intro hmem
            exact hru ((List.take_sublist _ _).subset hmem)
          have hdw : f.drop (r + 1) = w := by
            rw [hsw, ← hul]
            simp
          obtain ⟨hweq, hlitne, hlitchars⟩ := matchFloat_some hp
          have hwsplit : w = p.1 ++ p.2 := by
            rw [← hdw]
            exact hweq
          have hdrop2 : f.drop (r + p.1.length + 1) = p.2 := by
            rw [show r + p.1.length + 1 = r + 1 + p.1.length from by omega,
              ← List.drop_drop, hdw, hwsplit, drop_length_append]
          have hlitcount : List.count ')' p.1 = 0 := by
            apply List.count_eq_zero.mpr
            intro hmem
            rcases hlitchars ')' hmem with hdg | hdot
            · exact absurd hdg (by decide)
            · exact absurd hdot (by decide)
          have hc := congrArg (fun t => List.count ')' t) h1
          simp only [List.count_append, serialize_count_rparen] at hc
          rw [hctl, hdrop2] at hc
          have hf : List.count ')' f = List.count ')' w + 1 := by
            rw [hsw, List.count_append, List.count_cons_self,
              List.count_eq_zero.mpr hru]
            omega
          have hw2 : List.count ')' w = List.count ')' p.2 := by
            rw [hwsplit, List.count_append, hlitcount]
            omega
          unfold countRParen
          omega

/-- The expansion loop's result does not depend on the fuel once the fuel
exceeds the number of `)` characters: every non-identity iteration removes
one, so the fuel `countRParen f + 1` used by
`get_expanded_chemical_formula` never runs out. -/
theorem expandLoop_fuel_irrel :
    ∀ (n m : Nat) (f : List Char),
      countRParen f < n → countRParen f < m →
      expandLoop n f = expandLoop m f := by
  intro n
  induction n with
  | zero =>
    intro m f hn _
    omega
  | succ n ih =>
    intro m f hn hm
    cases m with
    | zero => omega
    | succ m' =>
      have he1 : expandLoop (n + 1) f =
          match expand_innermost_atomic_ratio f with
          | .error e => .error e
          | .ok f1 => if f1 = f then .ok f else expandLoop n f1 := rfl
      have he2 : expandLoop (m' + 1) f =
          match expand_innermost_atomic_ratio f with
          | .error e => .error e
          | .ok f1 => if f1 = f then .ok f else expandLoop m' f1 := rfl
      rw [he1, he2]
      have hsplit : (∃ e, expand_innermost_atomic_ratio f = .error e) ∨
          ∃ f1, expand_innermost_atomic_ratio f = .ok f1 := by
        cases expand_innermost_atomic_ratio f
        · exact Or.inl ⟨_, rfl⟩
        · exact Or.inr ⟨_, rfl⟩
      rcases hsplit with ⟨e, hE⟩ | ⟨f1, hE⟩
      · simp only [hE]
      · simp only [hE]
        by_cases hff : f1 = f
        · simp only [hff, if_true]
        · simp only [hff, if_false]
          rcases countR_expand hE with heq | hcount
          · exact absurd heq hff
          · exact ih m' f1 (by omega) (by omega)

/-- Any fuel above the `)` count computes the Expansion Driver. -/
theorem get_expanded_fuel_sufficient (f : List Char) (n : Nat)
    (h : countRParen f < n) :
    get_expanded_chemical_formula f = expandLoop n f :=
  expandLoop_fuel_irrel (countRParen f + 1) n f (Nat.lt_succ_self _) h
